import Mathlib

/-!
Verification of the virtual-address-space manager of `os5`
(`src/os5/src/mm/memory_set.rs`, constants from `src/os5/src/config.rs`).

Shallow embedding conventions:
* machine integers (`usize`, `u8`) are `Nat` with explicit `% 2^w` where the
  source truncates or wraps;
* the page table, the frame pool and the virtual-address helpers live outside
  `src/` and are modelled from the spec (§2, §6, glossary): the page table is a
  finite VPN → entry map whose `map` installs the given flags plus the Valid
  bit, the frame pool hands out fresh, zero-filled frames, `floor`/`ceil`
  divide by the page size rounding down/up;
* `.unwrap()` on a value that can be `None` (a panic) is modelled by returning
  `Option.none` from the embedded operation;
* logging statements (`info!`, `println!`) are out of scope per the spec
  ("all CLI/logging/boot setup" are external) and are modelled as no-ops that
  do not evaluate their arguments.
-/

namespace OS5

/-! ### Constants (`config.rs`) -/

def PAGE_SIZE : Nat := 0x1000

def USER_STACK_SIZE : Nat := 4096 * 2

/-- `usize::MAX - PAGE_SIZE + 1` on a 64-bit target. -/
def TRAMPOLINE : Nat := 2 ^ 64 - PAGE_SIZE

def TRAP_CONTEXT : Nat := TRAMPOLINE - PAGE_SIZE

/-! ### Virtual addresses (modelled from the spec's glossary) -/

/-- Modelled from the spec: `VirtAddr::floor`, the page-aligned address divided
by the page size, rounding down. -/
def VirtAddr.floor (va : Nat) : Nat := va / PAGE_SIZE

/-- Modelled from the spec: `VirtAddr::ceil`, rounding up to the next page
boundary. -/
def VirtAddr.ceil (va : Nat) : Nat := (va + PAGE_SIZE - 1) / PAGE_SIZE

/-! ### Page table (modelled from the spec, §6)

`map(vpn, ppn, flags)` installs an entry with the given flags plus the Valid
bit; `unmap(vpn)` removes the entry; `translate(vpn)` returns the entry if
present.  Flag bit positions follow the source's `MapPermission`/`PTEFlags`
encoding: V = bit 0, R = bit 1, W = bit 2, X = bit 3, U = bit 4. -/

structure PageTableEntry where
  ppn : Nat
  flags : Nat
deriving DecidableEq, Repr

def PageTableEntry.readable (e : PageTableEntry) : Bool := e.flags.testBit 1

def PageTableEntry.writable (e : PageTableEntry) : Bool := e.flags.testBit 2

def PageTableEntry.executable (e : PageTableEntry) : Bool := e.flags.testBit 3

abbrev PageTable := List (Nat × PageTableEntry)

def PageTable.map (pt : PageTable) (vpn ppn flags : Nat) : PageTable :=
  (vpn, ⟨ppn, flags ||| 1⟩) :: pt

def PageTable.unmap : PageTable → Nat → PageTable
  | [], _ => []
  | e :: rest, vpn =>
    if e.1 = vpn then PageTable.unmap rest vpn else e :: PageTable.unmap rest vpn

def PageTable.translate : PageTable → Nat → Option PageTableEntry
  | [], _ => none
  | e :: rest, vpn => if e.1 = vpn then some e.2 else PageTable.translate rest vpn

/-! ### Frame pool and physical memory (modelled from the spec, §2, §6)

Frames are handed out in increasing PPN order by a counter; a freshly
allocated frame is zero-filled ("assuming pages are pre-zeroed by frame
allocation", spec §4.1).  `mem ppn off` is the byte at offset `off` of
physical page `ppn`. -/

structure Machine where
  next_frame : Nat
  mem : Nat → Nat → Nat

/-- Modelled from the spec: `frame_alloc` returns a fresh, zero-filled frame.
Allocation failure is out of scope (the claims assume allocation succeeds). -/
def frame_alloc (m : Machine) : Nat × Machine :=
  (m.next_frame,
   { next_frame := m.next_frame + 1,
     mem := fun p o => if p = m.next_frame then 0 else m.mem p o })

/-- A single byte store through physical memory (used to state frame
independence). -/
def Machine.write (m : Machine) (p o b : Nat) : Machine :=
  { m with mem := fun q r => if q = p ∧ r = o then b else m.mem q r }

/-! ### `MapPermission` (bitflags, `memory_set.rs`) -/

def MapPermission.R : Nat := 1 <<< 1
def MapPermission.W : Nat := 1 <<< 2
def MapPermission.X : Nat := 1 <<< 3
def MapPermission.U : Nat := 1 <<< 4

/-- `MapPermission::from_bits`: defined iff no bit outside `R|W|X|U` is set. -/
def MapPermission.from_bits (b : Nat) : Option Nat :=
  if b &&& 0b11100001 = 0 then some b else none

/-! ### `MapArea` -/

inductive MapType where
  | Identical
  | Framed
deriving DecidableEq, Repr

structure VPNRange where
  l : Nat
  r : Nat
deriving DecidableEq, Repr

def VPNRange.get_start (rg : VPNRange) : Nat := rg.l

def VPNRange.get_end (rg : VPNRange) : Nat := rg.r

/-- The list of VPNs the range iterator visits (empty when `l ≥ r`). -/
def VPNRange.toList (rg : VPNRange) : List Nat := List.range' rg.l (rg.r - rg.l)

/-- `data_frames` is a `BTreeMap<VirtPageNum, FrameTracker>`; a frame tracker
is identified by the PPN it owns. -/
abbrev DataFrames := List (Nat × Nat)

def DataFrames.erase : DataFrames → Nat → DataFrames
  | [], _ => []
  | e :: rest, vpn =>
    if e.1 = vpn then DataFrames.erase rest vpn else e :: DataFrames.erase rest vpn

/-- `BTreeMap::insert` (replacing any previous binding of the key). -/
def DataFrames.insert (df : DataFrames) (vpn ppn : Nat) : DataFrames :=
  (vpn, ppn) :: df.erase vpn

def DataFrames.lookup : DataFrames → Nat → Option Nat
  | [], _ => none
  | e :: rest, vpn => if e.1 = vpn then some e.2 else DataFrames.lookup rest vpn

structure MapArea where
  vpn_range : VPNRange
  data_frames : DataFrames
  map_type : MapType
  map_perm : Nat
deriving DecidableEq, Repr

def MapArea.new (start_va end_va : Nat) (ty : MapType) (perm : Nat) : MapArea :=
  { vpn_range := ⟨VirtAddr.floor start_va, VirtAddr.ceil end_va⟩,
    data_frames := [],
    map_type := ty,
    map_perm := perm }

def MapArea.from_another (another : MapArea) : MapArea :=
  { vpn_range := ⟨another.vpn_range.get_start, another.vpn_range.get_end⟩,
    data_frames := [],
    map_type := another.map_type,
    map_perm := another.map_perm }

/-- `MapArea::map_one`: `Identical` installs VPN = PPN; `Framed` allocates a
frame, records ownership in `data_frames`, and installs the translation.
`PTEFlags::from_bits(self.map_perm.bits)` always succeeds (every `u8` bit is a
defined `PTEFlags` bit), so no panic is modelled here. -/
def MapArea.map_one (a : MapArea) (pt : PageTable) (m : Machine) (vpn : Nat) :
    MapArea × PageTable × Machine :=
  match a.map_type with
  | MapType.Identical => (a, pt.map vpn vpn a.map_perm, m)
  | MapType.Framed =>
    let alloc := frame_alloc m
    ({ a with data_frames := a.data_frames.insert vpn alloc.1 },
     pt.map vpn alloc.1 a.map_perm, alloc.2)

def MapArea.unmap_one (a : MapArea) (pt : PageTable) (vpn : Nat) :
    MapArea × PageTable :=
  match a.map_type with
  | MapType.Framed => ({ a with data_frames := a.data_frames.erase vpn }, pt.unmap vpn)
  | MapType.Identical => (a, pt.unmap vpn)

def map_go (a : MapArea) (pt : PageTable) (m : Machine) :
    List Nat → MapArea × PageTable × Machine
  | [] => (a, pt, m)
  | vpn :: rest =>
    let s := a.map_one pt m vpn
    map_go s.1 s.2.1 s.2.2 rest

/-- `MapArea::map`: apply `map_one` to every page of the range. -/
def MapArea.map (a : MapArea) (pt : PageTable) (m : Machine) :
    MapArea × PageTable × Machine :=
  map_go a pt m a.vpn_range.toList

def unmap_go (a : MapArea) (pt : PageTable) : List Nat → MapArea × PageTable
  | [] => (a, pt)
  | vpn :: rest =>
    let s := a.unmap_one pt vpn
    unmap_go s.1 s.2 rest

/-- `MapArea::unmap`: apply `unmap_one` to every page of the range. -/
def MapArea.unmap (a : MapArea) (pt : PageTable) : MapArea × PageTable :=
  unmap_go a pt a.vpn_range.toList

/-- One page-sized copy: the destination page receives `src` starting at
offset 0 (`dst = &mut ...[..src.len()]; dst.copy_from_slice(src)`). -/
def copy_page (m : Machine) (ppn : Nat) (src : List Nat) : Machine :=
  { m with mem := fun p o => if p = ppn ∧ o < src.length then src.getD o 0 else m.mem p o }

/-- The `loop` body of `MapArea::copy_data`; `fuel` bounds the number of
iterations (the source loop runs `max 1 ⌈len / PAGE_SIZE⌉` times).
`none` models the `translate(...).unwrap()` panic on an unmapped page. -/
def copy_data_go (pt : PageTable) (data : List Nat) :
    Nat → Nat → Nat → Machine → Option Machine
  | 0, _, _, _ => none
  | fuel + 1, start, vpn, m =>
    match pt.translate vpn with
    | none => none
    | some e =>
      let src := (data.drop start).take PAGE_SIZE
      let m' := copy_page m e.ppn src
      if start + PAGE_SIZE ≥ data.length then some m'
      else copy_data_go pt data fuel (start + PAGE_SIZE) (vpn + 1) m'

/-- `MapArea::copy_data`.  The leading `assert_eq!(self.map_type, Framed)`
and any `translate(...).unwrap()` panic are modelled as `none`. -/
def MapArea.copy_data (a : MapArea) (pt : PageTable) (m : Machine) (data : List Nat) :
    Option Machine :=
  if a.map_type = MapType.Framed then
    copy_data_go pt data (data.length / PAGE_SIZE + 1) 0 a.vpn_range.get_start m
  else none

/-! ### `MemorySet` -/

structure MemorySet where
  page_table : PageTable
  areas : List MapArea

def MemorySet.new_bare : MemorySet := { page_table := [], areas := [] }

def MemorySet.translate (ms : MemorySet) (vpn : Nat) : Option PageTableEntry :=
  ms.page_table.translate vpn

/-- `MemorySet::map_trampoline`: installs the trampoline translation directly
in the page table, not tracked by any area.  `strampoline` is the link-time
physical page of the trampoline code (external symbol). -/
def MemorySet.map_trampoline (ms : MemorySet) (strampoline : Nat) : MemorySet :=
  { ms with
    page_table :=
      ms.page_table.map (VirtAddr.floor TRAMPOLINE) (VirtAddr.floor strampoline)
        (MapPermission.R ||| MapPermission.X) }

/-- `MemorySet::push` with `data = None`: map the area, append it. -/
def MemorySet.pushArea (ms : MemorySet) (m : Machine) (area : MapArea) :
    MemorySet × Machine :=
  let s := area.map ms.page_table m
  ({ page_table := s.2.1, areas := ms.areas ++ [s.1] }, s.2.2)

/-- `MemorySet::push` with `data = Some d`: map the area, copy the data,
append it.  `none` propagates a `copy_data` panic. -/
def MemorySet.pushData (ms : MemorySet) (m : Machine) (area : MapArea)
    (data : List Nat) : Option (MemorySet × Machine) :=
  let s := area.map ms.page_table m
  match s.1.copy_data s.2.1 s.2.2 data with
  | none => none
  | some m' => some ({ page_table := s.2.1, areas := ms.areas ++ [s.1] }, m')

/-- `MemorySet::insert_framed_area` ("Assume that no conflicts"). -/
def MemorySet.insert_framed_area (ms : MemorySet) (m : Machine)
    (start_va end_va perm : Nat) : MemorySet × Machine :=
  ms.pushArea m (MapArea.new start_va end_va MapType.Framed perm)

def remove_area_go (start_vpn : Nat) :
    List MapArea → PageTable → List MapArea × PageTable
  | [], pt => ([], pt)
  | a :: rest, pt =>
    if a.vpn_range.get_start = start_vpn then
      (rest, (a.unmap pt).2)
    else
      let s := remove_area_go start_vpn rest pt
      (a :: s.1, s.2)

/-- `MemorySet::remove_area_with_start_vpn`: unmap and drop the first area
whose range starts exactly at `start_vpn`; no-op otherwise. -/
def MemorySet.remove_area_with_start_vpn (ms : MemorySet) (start_vpn : Nat) :
    MemorySet :=
  let s := remove_area_go start_vpn ms.areas ms.page_table
  { page_table := s.2, areas := s.1 }

/-- `MemorySet::recycle_data_pages`: `self.areas.clear()`. -/
def MemorySet.recycle_data_pages (ms : MemorySet) : MemorySet :=
  { ms with areas := [] }

/-- `MemorySet::mmap`.  Logging is a no-op; the result is `none` when
`MapPermission::from_bits(...).unwrap()` panics. -/
def MemorySet.mmap (ms : MemorySet) (m : Machine) (start end_ prot : Nat) :
    Option (Int × MemorySet × Machine) :=
  let lvpn := VirtAddr.floor start
  let rvpn := VirtAddr.ceil end_
  if ms.areas.any (fun area =>
      decide (area.vpn_range.get_start < area.vpn_range.get_end) &&
      decide (lvpn < area.vpn_range.get_end) &&
      decide (rvpn > area.vpn_range.get_start)) then
    some (-1, ms, m)
  else
    match MapPermission.from_bits ((prot % 256) * 2 % 256) with
    | none => none
    | some p =>
      let permission := p ||| MapPermission.U
      let s := ms.insert_framed_area m (lvpn * PAGE_SIZE) (rvpn * PAGE_SIZE) permission
      some (0, s.1, s.2)

def munmap_areas (lvpn rvpn : Nat) :
    List MapArea → PageTable → List MapArea × PageTable
  | [], pt => ([], pt)
  | a :: rest, pt =>
    if lvpn ≤ a.vpn_range.get_start ∧ a.vpn_range.get_end ≤ rvpn then
      let s := a.unmap pt
      let shrunk := { s.1 with vpn_range := ⟨a.vpn_range.get_start, a.vpn_range.get_start⟩ }
      let t := munmap_areas lvpn rvpn rest s.2
      (shrunk :: t.1, t.2)
    else
      let t := munmap_areas lvpn rvpn rest pt
      (a :: t.1, t.2)

/-- `MemorySet::munmap`.  The coverage check sums the page counts of the areas
fully contained in the requested range before any mutation. -/
def MemorySet.munmap (ms : MemorySet) (start end_ : Nat) : Int × MemorySet :=
  let lvpn := VirtAddr.floor start
  let rvpn := VirtAddr.ceil end_
  if (ms.areas.filterMap (fun area =>
        if lvpn ≤ area.vpn_range.get_start ∧ area.vpn_range.get_end ≤ rvpn then
          some (area.vpn_range.get_end - area.vpn_range.get_start)
        else none)).sum < rvpn - lvpn then
    (-1, ms)
  else
    let s := munmap_areas lvpn rvpn ms.areas ms.page_table
    (0,
     { page_table := s.2,
       areas := s.1.filter (fun area =>
         decide (area.vpn_range.get_start < area.vpn_range.get_end)) })

/-! ### Syscall-facing wrappers (`mmap`/`munmap` free functions)

`current_task()` is external task bookkeeping; it is modelled as an optional
current address-space state passed in.  The wrapper returns the syscall status
together with the (possibly updated) task state; `none` propagates a panic of
the primitive. -/

def mmap (task : Option (MemorySet × Machine)) (start len prot : Nat) :
    Option (Int × Option (MemorySet × Machine)) :=
  if len = 0 then some (0, task)
  else if prot >>> 3 ≠ 0 ∨ prot &&& 0x7 = 0 ∨ start % 4096 ≠ 0 then some (-1, task)
  else
    match task with
    | some st =>
      match st.1.mmap st.2 start (start + len) prot with
      | none => none
      | some r => some (r.1, some (r.2.1, r.2.2))
    | none => some (-1, none)

def munmap (task : Option (MemorySet × Machine)) (start len : Nat) :
    Option (Int × Option (MemorySet × Machine)) :=
  if len = 0 then some (0, task)
  else if start % 4096 ≠ 0 then some (-1, task)
  else
    match task with
    | some st =>
      let r := st.1.munmap start (start + len)
      some (r.1, some (r.2, st.2))
    | none => some (-1, none)

/-! ### ELF images (parser modelled from the spec, §6)

The parser exposes per-header type, virtual address, memory size, flags and
the file-backed bytes (`elf.input[offset .. offset + file_size]`), plus the
header magic and the entry point. -/

inductive SegType where
  | Load
  | Other
deriving DecidableEq, Repr

structure ProgramHeader where
  ptype : SegType
  vaddr : Nat
  mem_size : Nat
  file_data : List Nat
  is_read : Bool
  is_write : Bool
  is_exec : Bool
deriving DecidableEq, Repr

structure ElfFile where
  magic_ok : Bool
  phs : List ProgramHeader
  entry_point : Nat

/-- Permission of a loadable segment: User forced on, then R/W/X copied
bit-for-bit from the segment flags. -/
def segPerm (ph : ProgramHeader) : Nat :=
  (((MapPermission.U ||| (if ph.is_read then MapPermission.R else 0)) |||
      (if ph.is_write then MapPermission.W else 0)) |||
    (if ph.is_exec then MapPermission.X else 0))

/-- The segment-loading loop of `from_elf`: for every `Load` header, build a
`Framed` area over `[vaddr, vaddr + mem_size)`, push it with the file bytes,
and overwrite `max_end_vpn` with this area's end VPN. -/
def load_segments :
    List ProgramHeader → MemorySet → Machine → Nat →
      Option (MemorySet × Machine × Nat)
  | [], ms, m, max_end_vpn => some (ms, m, max_end_vpn)
  | ph :: rest, ms, m, max_end_vpn =>
    match ph.ptype with
    | SegType.Other => load_segments rest ms m max_end_vpn
    | SegType.Load =>
      let area := MapArea.new ph.vaddr (ph.vaddr + ph.mem_size) MapType.Framed (segPerm ph)
      match ms.pushData m area ph.file_data with
      | none => none
      | some s => load_segments rest s.1 s.2 area.vpn_range.get_end

/-- `MemorySet::from_elf`.  Returns `(memory_set, user_stack_top, entry_point)`
plus the machine; `none` models the `assert` on the magic and any panic while
copying segment data. -/
def MemorySet.from_elf (m : Machine) (strampoline : Nat) (elf : ElfFile) :
    Option (MemorySet × Nat × Nat × Machine) :=
  let ms := MemorySet.new_bare.map_trampoline strampoline
  if elf.magic_ok then
    match load_segments elf.phs ms m 0 with
    | none => none
    | some s =>
      let user_stack_bottom := s.2.2 * PAGE_SIZE + PAGE_SIZE
      let user_stack_top := user_stack_bottom + USER_STACK_SIZE
      let s1 := s.1.pushArea s.2.1
        (MapArea.new user_stack_bottom user_stack_top MapType.Framed
          (MapPermission.R ||| MapPermission.W ||| MapPermission.U))
      let s2 := s1.1.pushArea s1.2
        (MapArea.new TRAP_CONTEXT TRAMPOLINE MapType.Framed
          (MapPermission.R ||| MapPermission.W))
      some (s2.1, user_stack_top, elf.entry_point, s2.2)
  else none

/-! ### `MemorySet::from_existed_user` -/

/-- One page of the duplication copy loop:
`dst_ppn.get_bytes_array().copy_from_slice(src_ppn.get_bytes_array())`. -/
def copy_full_page (m : Machine) (dst src : Nat) : Machine :=
  { m with
    mem := fun p o => if p = dst ∧ o < PAGE_SIZE then m.mem src o else m.mem p o }

/-- The per-area copy loop of `from_existed_user`: for each VPN of the source
area's range, translate through both spaces (`unwrap` panics modelled as
`none`) and copy the full page. -/
def copy_area_pages (src dst : MemorySet) : List Nat → Machine → Option Machine
  | [], m => some m
  | vpn :: rest, m =>
    match src.translate vpn, dst.translate vpn with
    | some se, some de => copy_area_pages src dst rest (copy_full_page m de.ppn se.ppn)
    | _, _ => none

def dup_areas (user_space : MemorySet) :
    List MapArea → MemorySet → Machine → Option (MemorySet × Machine)
  | [], ms, m => some (ms, m)
  | area :: rest, ms, m =>
    let s := ms.pushArea m (MapArea.from_another area)
    match copy_area_pages user_space s.1 area.vpn_range.toList s.2 with
    | none => none
    | some m' => dup_areas user_space rest s.1 m'

/-- `MemorySet::from_existed_user`: eager full deep copy of every area. -/
def MemorySet.from_existed_user (m : Machine) (strampoline : Nat)
    (user_space : MemorySet) : Option (MemorySet × Machine) :=
  dup_areas user_space user_space.areas (MemorySet.new_bare.map_trampoline strampoline) m

/-! ### Derived notions used in the statements -/

/-- The number of iterations `copy_data`'s loop performs on `len` bytes of
data (always at least one). -/
def chunksOf (len : Nat) : Nat := max 1 ((len + PAGE_SIZE - 1) / PAGE_SIZE)

/-- First VPN of a loadable segment's region. -/
def segStartVpn (ph : ProgramHeader) : Nat := VirtAddr.floor ph.vaddr

/-- One-past-the-last VPN of a loadable segment's region. -/
def segEndVpn (ph : ProgramHeader) : Nat :=
  VirtAddr.ceil (ph.vaddr + ph.mem_size)

/-- The value of `max_end_vpn` after the segment loop, starting from `mx`:
each `Load` header overwrites it with its own end VPN. -/
def elfLastEndVpnFrom (mx : Nat) : List ProgramHeader → Nat
  | [] => mx
  | ph :: rest =>
    elfLastEndVpnFrom (if ph.ptype = SegType.Load then segEndVpn ph else mx) rest

/-- The value of `max_end_vpn` `from_elf` ends up with. -/
def elfLastEndVpn (phs : List ProgramHeader) : Nat := elfLastEndVpnFrom 0 phs

/-- The spec's Region invariant, literally: the keys of `data_frames` are
exactly the pages of `vpn_range` currently mapped in the owning page table. -/
def framesKeysExactlyMapped (pt : PageTable) (a : MapArea) : Prop :=
  (∀ e ∈ a.data_frames, a.vpn_range.get_start ≤ e.1 ∧ e.1 < a.vpn_range.get_end) ∧
  (∀ vpn ∈ a.vpn_range.toList,
    (pt.translate vpn).isSome = (a.data_frames.lookup vpn).isSome)

/-- The Region invariant restricted as the code maintains it: the key/mapped
correspondence for `Framed` regions, and an always-empty `data_frames` for
`Identical` regions. -/
def regionFramesInv (pt : PageTable) (a : MapArea) : Prop :=
  (a.map_type = MapType.Framed → framesKeysExactlyMapped pt a) ∧
  (a.map_type = MapType.Identical → a.data_frames = [])

/-- The address-space-wide form of the Region invariant. -/
def MemorySet.framesInv (ms : MemorySet) : Prop :=
  ∀ a ∈ ms.areas, regionFramesInv ms.page_table a

/-- Two areas occupy disjoint VPN ranges. -/
def rangesDisjoint (a b : MapArea) : Prop :=
  a.vpn_range.get_end ≤ b.vpn_range.get_start ∨
  b.vpn_range.get_end ≤ a.vpn_range.get_start

/-- The containment test `munmap` applies to each area. -/
def containedIn (lvpn rvpn : Nat) (a : MapArea) : Prop :=
  lvpn ≤ a.vpn_range.get_start ∧ a.vpn_range.get_end ≤ rvpn

instance (lvpn rvpn : Nat) (a : MapArea) : Decidable (containedIn lvpn rvpn a) := by
  unfold containedIn; infer_instance

instance (a b : MapArea) : Decidable (rangesDisjoint a b) := by
  unfold rangesDisjoint; infer_instance

instance (pt : PageTable) (a : MapArea) : Decidable (framesKeysExactlyMapped pt a) := by
  unfold framesKeysExactlyMapped; infer_instance

instance (pt : PageTable) (a : MapArea) : Decidable (regionFramesInv pt a) := by
  unfold regionFramesInv; infer_instance

instance (ms : MemorySet) : Decidable ms.framesInv := by
  unfold MemorySet.framesInv; infer_instance

/-! ## Basic lemmas about the page-table and frame-map models -/

theorem translate_map (pt : PageTable) (w ppn flags vpn : Nat) :
    (pt.map w ppn flags).translate vpn =
      if vpn = w then some ⟨ppn, flags ||| 1⟩ else pt.translate vpn := by
  simp only [PageTable.map, PageTable.translate]
  by_cases h : vpn = w
  · simp [h]
  · rw [if_neg fun hh => h hh.symm, if_neg h]

theorem translate_unmap (pt : PageTable) (w vpn : Nat) :
    (pt.unmap w).translate vpn =
      if vpn = w then none else pt.translate vpn := by
  induction pt with
  | nil => simp [PageTable.unmap, PageTable.translate]
  | cons e rest ih =>
    simp only [PageTable.unmap]
    by_cases he : e.1 = w
    · rw [if_pos he, ih]
      by_cases hv : vpn = w
      · simp [hv]
      · simp only [if_neg hv, PageTable.translate]
        rw [if_neg]
        omega
    · rw [if_neg he]
      simp only [PageTable.translate]
      by_cases hv : e.1 = vpn
      · rw [if_pos hv, if_pos hv, if_neg]
        omega
      · rw [if_neg hv, if_neg hv, ih]

theorem lookup_erase (df : DataFrames) (w vpn : Nat) :
    (df.erase w).lookup vpn = if vpn = w then none else df.lookup vpn := by
  induction df with
  | nil => simp [DataFrames.erase, DataFrames.lookup]
  | cons e rest ih =>
    simp only [DataFrames.erase]
    by_cases he : e.1 = w
    · rw [if_pos he, ih]
      by_cases hv : vpn = w
      · simp [hv]
      · simp only [if_neg hv, DataFrames.lookup]
        rw [if_neg]
        omega
    · rw [if_neg he]
      simp only [DataFrames.lookup]
      by_cases hv : e.1 = vpn
      · rw [if_pos hv, if_pos hv, if_neg]
        omega
      · rw [if_neg hv, if_neg hv, ih]

theorem lookup_insert (df : DataFrames) (w ppn vpn : Nat) :
    (df.insert w ppn).lookup vpn = if vpn = w then some ppn else df.lookup vpn := by
  simp only [DataFrames.insert, DataFrames.lookup]
  by_cases hv : vpn = w
  · simp [hv]
  · rw [if_neg fun hh => hv hh.symm, if_neg hv, lookup_erase, if_neg hv]

/-! ## Characterization of `MapArea::map` for `Framed` areas

Mapping the pages `[s, s+n)` of a `Framed` area allocates the fresh frames
`[next, next+n)` in VPN order, installs one translation per page with the
area's permission plus Valid, records exactly those pages in `data_frames`,
zero-fills the new frames and touches nothing else. -/

theorem map_go_framed (n : Nat) :
    ∀ (s : Nat) (a : MapArea) (pt : PageTable) (m : Machine),
      a.map_type = MapType.Framed →
      (map_go a pt m (List.range' s n)).1.vpn_range = a.vpn_range ∧
      (map_go a pt m (List.range' s n)).1.map_type = MapType.Framed ∧
      (map_go a pt m (List.range' s n)).1.map_perm = a.map_perm ∧
      (map_go a pt m (List.range' s n)).2.2.next_frame = m.next_frame + n ∧
      (∀ vpn, (map_go a pt m (List.range' s n)).2.1.translate vpn =
        if s ≤ vpn ∧ vpn < s + n then
          some ⟨m.next_frame + (vpn - s), a.map_perm ||| 1⟩
        else pt.translate vpn) ∧
      (∀ vpn, (map_go a pt m (List.range' s n)).1.data_frames.lookup vpn =
        if s ≤ vpn ∧ vpn < s + n then some (m.next_frame + (vpn - s))
        else a.data_frames.lookup vpn) ∧
      (∀ p o, (map_go a pt m (List.range' s n)).2.2.mem p o =
        if m.next_frame ≤ p ∧ p < m.next_frame + n then 0 else m.mem p o) := by
  induction n with
  | zero =>
    intro s a pt m ha
    refine ⟨rfl, ha, rfl, rfl, ?_, ?_, ?_⟩
    · intro vpn
      show pt.translate vpn = _
      rw [if_neg (by omega)]
    · intro vpn
      show a.data_frames.lookup vpn = _
      rw [if_neg (by omega)]
    · intro p o
      show m.mem p o = _
      rw [if_neg (by omega)]
  | succ n ih =>
    intro s a pt m ha
    obtain ⟨rg, df, ty, perm⟩ := a
    have ha' : ty = MapType.Framed := ha
    subst ha'
    rw [List.range'_succ]
    simp only [map_go, MapArea.map_one, frame_alloc]
    have key := ih (s + 1) ⟨rg, df.insert s m.next_frame, MapType.Framed, perm⟩
      (pt.map s m.next_frame perm)
      ⟨m.next_frame + 1, fun p o => if p = m.next_frame then 0 else m.mem p o⟩ rfl
    obtain ⟨i1, i2, i3, i4, i5, i6, i7⟩ := key
    refine ⟨i1, i2, i3, ?_, ?_, ?_, ?_⟩
    · rw [i4]
      show m.next_frame + 1 + n = m.next_frame + (n + 1)
      omega
    · intro vpn
      rw [i5 vpn, translate_map]
      by_cases h1 : s + 1 ≤ vpn ∧ vpn < s + 1 + n
      · rw [if_pos h1, if_pos (by omega)]
        have harith : m.next_frame + 1 + (vpn - (s + 1)) = m.next_frame + (vpn - s) := by
          omega
        rw [harith]
      · rw [if_neg h1]
        by_cases h2 : vpn = s
        · rw [if_pos h2, if_pos (by omega)]
          subst h2
          simp
        · rw [if_neg h2, if_neg (by omega)]
    · intro vpn
      rw [i6 vpn]
      show _ = _
      by_cases h1 : s + 1 ≤ vpn ∧ vpn < s + 1 + n
      · rw [if_pos h1, if_pos (by omega)]
        have harith : m.next_frame + 1 + (vpn - (s + 1)) = m.next_frame + (vpn - s) := by
          omega
        rw [harith]
      · rw [if_neg h1, lookup_insert]
        by_cases h2 : vpn = s
        · rw [if_pos h2, if_pos (by omega)]
          subst h2
          simp
        · rw [if_neg h2, if_neg (by omega)]
    · intro p o
      rw [i7 p o]
      by_cases h1 : m.next_frame + 1 ≤ p ∧ p < m.next_frame + 1 + n
      · rw [if_pos h1, if_pos (by omega)]
      · rw [if_neg h1]
        show (if p = m.next_frame then 0 else m.mem p o) = _
        by_cases h2 : p = m.next_frame
        · rw [if_pos h2, if_pos (by omega)]
        · rw [if_neg h2, if_neg (by omega)]

/-! ## Characterization of `MapArea::unmap` -/

theorem unmap_go_spec (L : List Nat) :
    ∀ (a : MapArea) (pt : PageTable),
      (unmap_go a pt L).1.vpn_range = a.vpn_range ∧
      (unmap_go a pt L).1.map_type = a.map_type ∧
      (unmap_go a pt L).1.map_perm = a.map_perm ∧
      (∀ vpn, (unmap_go a pt L).2.translate vpn =
        if vpn ∈ L then none else pt.translate vpn) ∧
      (∀ vpn, (unmap_go a pt L).1.data_frames.lookup vpn =
        if vpn ∈ L ∧ a.map_type = MapType.Framed then none
        else a.data_frames.lookup vpn) ∧
      (a.map_type = MapType.Identical →
        (unmap_go a pt L).1.data_frames = a.data_frames) := by
  induction L with
  | nil =>
    intro a pt
    refine ⟨rfl, rfl, rfl, ?_, ?_, fun _ => rfl⟩
    · intro vpn
      show pt.translate vpn = _
      simp
    · intro vpn
      show a.data_frames.lookup vpn = _
      simp
  | cons x rest ih =>
    intro a pt
    obtain ⟨rg, df, ty, perm⟩ := a
    cases ty
    case Identical =>
      simp only [unmap_go, MapArea.unmap_one]
      obtain ⟨i1, i2, i3, i4, i5, i6⟩ := ih ⟨rg, df, MapType.Identical, perm⟩ (pt.unmap x)
      refine ⟨i1, i2, i3, ?_, ?_, fun _ => i6 rfl⟩
      · intro vpn
        rw [i4 vpn, translate_unmap]
        by_cases h1 : vpn ∈ rest
        · rw [if_pos h1, if_pos (by simp [h1])]
        · rw [if_neg h1]
          by_cases h2 : vpn = x
          · rw [if_pos h2, if_pos (by simp [h2])]
          · rw [if_neg h2, if_neg (by simp [h1, h2])]
      · intro vpn
        rw [i5 vpn]
        rw [if_neg (by simp), if_neg (by simp)]
    case Framed =>
      simp only [unmap_go, MapArea.unmap_one]
      obtain ⟨i1, i2, i3, i4, i5, i6⟩ := ih ⟨rg, df.erase x, MapType.Framed, perm⟩ (pt.unmap x)
      refine ⟨i1, i2, i3, ?_, ?_, fun ht => absurd ht (by decide)⟩
      · intro vpn
        rw [i4 vpn, translate_unmap]
        by_cases h1 : vpn ∈ rest
        · rw [if_pos h1, if_pos (by simp [h1])]
        · rw [if_neg h1]
          by_cases h2 : vpn = x
          · rw [if_pos h2, if_pos (by simp [h2])]
          · rw [if_neg h2, if_neg (by simp [h1, h2])]
      · intro vpn
        rw [i5 vpn]
        by_cases h1 : vpn ∈ rest
        · rw [if_pos (by simp [h1]), if_pos (by simp [h1])]
        · rw [if_neg (by simp [h1]), lookup_erase]
          by_cases h2 : vpn = x
          · rw [if_pos h2, if_pos (by simp [h2])]
          · rw [if_neg h2, if_neg (by simp [h1, h2])]

theorem floor_mul (k : Nat) : VirtAddr.floor (k * PAGE_SIZE) = k := by
  simp only [VirtAddr.floor, PAGE_SIZE]
  exact Nat.mul_div_cancel k (by norm_num)

theorem ceil_mul (k : Nat) : VirtAddr.ceil (k * PAGE_SIZE) = k := by
  simp only [VirtAddr.ceil, PAGE_SIZE]
  have h : k * 4096 + 4096 - 1 = 4095 + 4096 * k := by omega
  rw [h, Nat.add_mul_div_left 4095 k (by norm_num)]
  norm_num

theorem floor_lt_ceil (start end_ : Nat) (h : start < end_) :
    VirtAddr.floor start < VirtAddr.ceil end_ := by
  simp only [VirtAddr.floor, VirtAddr.ceil, PAGE_SIZE]
  have h1 : (start + 4096) / 4096 ≤ (end_ + 4096 - 1) / 4096 :=
    Nat.div_le_div_right (by omega)
  rw [Nat.add_div_right start (by norm_num)] at h1
  omega

theorem map_framed_spec (a : MapArea) (pt : PageTable) (m : Machine)
    (ha : a.map_type = MapType.Framed) :
    (a.map pt m).1.vpn_range = a.vpn_range ∧
    (a.map pt m).1.map_type = MapType.Framed ∧
    (a.map pt m).1.map_perm = a.map_perm ∧
    (a.map pt m).2.2.next_frame =
      m.next_frame + (a.vpn_range.r - a.vpn_range.l) ∧
    (∀ vpn, (a.map pt m).2.1.translate vpn =
      if a.vpn_range.l ≤ vpn ∧ vpn < a.vpn_range.l + (a.vpn_range.r - a.vpn_range.l)
      then some ⟨m.next_frame + (vpn - a.vpn_range.l), a.map_perm ||| 1⟩
      else pt.translate vpn) ∧
    (∀ vpn, (a.map pt m).1.data_frames.lookup vpn =
      if a.vpn_range.l ≤ vpn ∧ vpn < a.vpn_range.l + (a.vpn_range.r - a.vpn_range.l)
      then some (m.next_frame + (vpn - a.vpn_range.l))
      else a.data_frames.lookup vpn) ∧
    (∀ p o, (a.map pt m).2.2.mem p o =
      if m.next_frame ≤ p ∧ p < m.next_frame + (a.vpn_range.r - a.vpn_range.l)
      then 0 else m.mem p o) :=
  map_go_framed (a.vpn_range.r - a.vpn_range.l) a.vpn_range.l a pt m ha

theorem unmap_spec (a : MapArea) (pt : PageTable) :
    (a.unmap pt).1.vpn_range = a.vpn_range ∧
    (a.unmap pt).1.map_type = a.map_type ∧
    (a.unmap pt).1.map_perm = a.map_perm ∧
    (∀ vpn, (a.unmap pt).2.translate vpn =
      if a.vpn_range.l ≤ vpn ∧ vpn < a.vpn_range.r then none
      else pt.translate vpn) ∧
    (∀ vpn, (a.unmap pt).1.data_frames.lookup vpn =
      if (a.vpn_range.l ≤ vpn ∧ vpn < a.vpn_range.r) ∧ a.map_type = MapType.Framed
      then none else a.data_frames.lookup vpn) ∧
    (a.map_type = MapType.Identical →
      (a.unmap pt).1.data_frames = a.data_frames) := by
  obtain ⟨u1, u2, u3, u4, u5, u6⟩ := unmap_go_spec a.vpn_range.toList a pt
  simp only [MapArea.unmap]
  refine ⟨u1, u2, u3, ?_, ?_, u6⟩
  · intro vpn
    rw [u4 vpn]
    by_cases h : a.vpn_range.l ≤ vpn ∧ vpn < a.vpn_range.r
    · rw [if_pos ?_, if_pos h]
      simp only [VPNRange.toList, List.mem_range'_1]
      omega
    · rw [if_neg ?_, if_neg h]
      simp only [VPNRange.toList, List.mem_range'_1]
      omega
  · intro vpn
    rw [u5 vpn]
    by_cases h : (a.vpn_range.l ≤ vpn ∧ vpn < a.vpn_range.r) ∧ a.map_type = MapType.Framed
    · rw [if_pos ?_, if_pos h]
      refine ⟨?_, h.2⟩
      simp only [VPNRange.toList, List.mem_range'_1]
      omega
    · rw [if_neg ?_, if_neg h]
      intro hc
      refine h ⟨?_, hc.2⟩
      have := hc.1
      simp only [VPNRange.toList, List.mem_range'_1] at this
      omega

/-! ## Claim C3: `mmap` rejects overlapping requests and changes nothing -/

/-- C3: if the requested page range `[floor start, ceil end)` intersects some
existing non-empty region (nonempty ∧ requested-start < existing-end ∧
requested-end > existing-start), `MemorySet::mmap` returns `-1` and leaves the
region list, the page table and the machine exactly as they were; in
particular a second `mmap` overlapping a first one fails with `-1` and the
first mapping stays intact, and `mmap` never partially applies a mapping. -/
theorem mmap_overlap_rejected (ms : MemorySet) (m : Machine)
    (start end_ prot : Nat)
    (hover : ∃ a ∈ ms.areas,
      a.vpn_range.get_start < a.vpn_range.get_end ∧
      VirtAddr.floor start < a.vpn_range.get_end ∧
      VirtAddr.ceil end_ > a.vpn_range.get_start) :
    ms.mmap m start end_ prot = some (-1, ms, m) := by
  obtain ⟨a, haa, h1, h2, h3⟩ := hover
  have hguard : (ms.areas.any (fun area =>
      decide (area.vpn_range.get_start < area.vpn_range.get_end) &&
      decide (VirtAddr.floor start < area.vpn_range.get_end) &&
      decide (VirtAddr.ceil end_ > area.vpn_range.get_start))) = true := by
    rw [List.any_eq_true]
    exact ⟨a, haa, by simp [h1, h2, h3]⟩
  simp only [MemorySet.mmap]
  rw [if_pos hguard]

/-- Witness for C3: a second `mmap` over `[0x1000, 0x3000)` after one over
`[0, 0x2000)` fails with `-1` and leaves the state unchanged. -/
theorem mmap_overlap_rejected_witness :
    (∃ a ∈ (MemorySet.mk [] [⟨⟨0, 2⟩, [(0, 0), (1, 1)], MapType.Framed, 22⟩]).areas,
      a.vpn_range.get_start < a.vpn_range.get_end ∧
      VirtAddr.floor 0x1000 < a.vpn_range.get_end ∧
      VirtAddr.ceil 0x3000 > a.vpn_range.get_start) ∧
    (MemorySet.mk [] [⟨⟨0, 2⟩, [(0, 0), (1, 1)], MapType.Framed, 22⟩]).mmap
        ⟨2, fun _ _ => 0⟩ 0x1000 0x3000 3 =
      some (-1, MemorySet.mk [] [⟨⟨0, 2⟩, [(0, 0), (1, 1)], MapType.Framed, 22⟩],
        ⟨2, fun _ _ => 0⟩) :=
  ⟨by decide, mmap_overlap_rejected _ _ _ _ _ (by decide)⟩

/-! ## Claim C4: `munmap` rejects insufficient coverage before any mutation -/

/-- C4: when the regions fully contained in the requested page range
collectively cover fewer pages than the range's length, `MemorySet::munmap`
returns `-1` with the address space (region list and page table) exactly as
it was: the rejection happens before any mutation. -/
theorem munmap_insufficient_coverage (ms : MemorySet) (start end_ : Nat)
    (hcov : ((ms.areas.filterMap (fun area =>
        if VirtAddr.floor start ≤ area.vpn_range.get_start ∧
            area.vpn_range.get_end ≤ VirtAddr.ceil end_ then
          some (area.vpn_range.get_end - area.vpn_range.get_start)
        else none)).sum < VirtAddr.ceil end_ - VirtAddr.floor start)) :
    ms.munmap start end_ = (-1, ms) := by
  simp only [MemorySet.munmap]
  rw [if_pos hcov]

/-- Witness for C4: unmapping `[0, 0x3000)` when only `[0, 0x2000)` is covered
by a contained region fails with `-1` and returns the space unchanged. -/
theorem munmap_insufficient_coverage_witness :
    (((MemorySet.mk [(0, ⟨0, 23⟩), (1, ⟨1, 23⟩)]
          [⟨⟨0, 2⟩, [(0, 0), (1, 1)], MapType.Framed, 22⟩]).areas.filterMap
        (fun area =>
          if VirtAddr.floor 0 ≤ area.vpn_range.get_start ∧
              area.vpn_range.get_end ≤ VirtAddr.ceil 0x3000 then
            some (area.vpn_range.get_end - area.vpn_range.get_start)
          else none)).sum < VirtAddr.ceil 0x3000 - VirtAddr.floor 0) ∧
    (MemorySet.mk [(0, ⟨0, 23⟩), (1, ⟨1, 23⟩)]
        [⟨⟨0, 2⟩, [(0, 0), (1, 1)], MapType.Framed, 22⟩]).munmap 0 0x3000 =
      (-1, MemorySet.mk [(0, ⟨0, 23⟩), (1, ⟨1, 23⟩)]
        [⟨⟨0, 2⟩, [(0, 0), (1, 1)], MapType.Framed, 22⟩]) :=
  ⟨by decide, munmap_insufficient_coverage _ _ _ (by decide)⟩

/-! ## Claim C1: successful `mmap` maps the whole range with `prot`-derived
permissions plus the User bit -/

/-- C1: for page-aligned `start < end` such that no existing region overlaps
the page range `[floor start, ceil end)`, and with a wrapper-valid `prot`
(no bits above bit 2; frame allocation always succeeds in the model),
`MemorySet::mmap` returns `0` and afterwards `translate` on every page of the
range returns a present (Valid) entry whose permission flags match `prot`
(bit 0 = Read, bit 1 = Write, bit 2 = Execute) plus the User bit. -/
theorem mmap_fresh_range_maps_with_prot (ms : MemorySet) (m : Machine)
    (start end_ prot : Nat)
    (hal : start % PAGE_SIZE = 0) (hlt : start < end_) (hprot : prot < 8)
    (hfree : ∀ a ∈ ms.areas,
      ¬(a.vpn_range.get_start < a.vpn_range.get_end ∧
        VirtAddr.floor start < a.vpn_range.get_end ∧
        VirtAddr.ceil end_ > a.vpn_range.get_start)) :
    ∃ ms' m', ms.mmap m start end_ prot = some (0, ms', m') ∧
      ∀ vpn, VirtAddr.floor start ≤ vpn → vpn < VirtAddr.ceil end_ →
        ∃ e, ms'.translate vpn = some e ∧
          e.flags.testBit 0 = true ∧
          e.flags.testBit 1 = prot.testBit 0 ∧
          e.flags.testBit 2 = prot.testBit 1 ∧
          e.flags.testBit 3 = prot.testBit 2 ∧
          e.flags.testBit 4 = true := by
  have hguard : (ms.areas.any (fun area =>
      decide (area.vpn_range.get_start < area.vpn_range.get_end) &&
      decide (VirtAddr.floor start < area.vpn_range.get_end) &&
      decide (VirtAddr.ceil end_ > area.vpn_range.get_start))) = false := by
    rw [List.any_eq_false]
    intro a haa
    have h := hfree a haa
    simp only [Bool.and_eq_true, decide_eq_true_eq]
    tauto
  have hmod : (prot % 256) * 2 % 256 = prot * 2 := by omega
  have hbits : MapPermission.from_bits (prot * 2) = some (prot * 2) := by
    interval_cases prot <;> decide
  have hlr : VirtAddr.floor start < VirtAddr.ceil end_ := floor_lt_ceil start end_ hlt
  obtain ⟨s1, s2, s3, s4, s5, s6, s7⟩ :=
    map_framed_spec
      (MapArea.new (VirtAddr.floor start * PAGE_SIZE) (VirtAddr.ceil end_ * PAGE_SIZE)
        MapType.Framed (prot * 2 ||| MapPermission.U))
      ms.page_table m rfl
  simp only [MemorySet.mmap, hguard, Bool.false_eq_true, if_false, hmod, hbits,
    MemorySet.insert_framed_area, MemorySet.pushArea]
  refine ⟨_, _, rfl, ?_⟩
  intro vpn hv1 hv2
  simp only [MemorySet.translate]
  rw [s5 vpn]
  simp only [MapArea.new, floor_mul, ceil_mul] at *
  rw [if_pos (by omega)]
  refine ⟨_, rfl, ?_, ?_, ?_, ?_, ?_⟩ <;>
    · simp only [MapPermission.U]
      interval_cases prot <;> decide

/-- Witness for C1: mapping `[0, 0x2000)` with `prot = 3` (Read|Write) in an
empty address space succeeds and every page translates with R, W, U and Valid
set and X clear. -/
theorem mmap_fresh_range_maps_with_prot_witness :
    (0 % PAGE_SIZE = 0 ∧ 0 < 0x2000 ∧ 3 < 8 ∧
      ∀ a ∈ (MemorySet.mk [] []).areas,
        ¬(a.vpn_range.get_start < a.vpn_range.get_end ∧
          VirtAddr.floor 0 < a.vpn_range.get_end ∧
          VirtAddr.ceil 0x2000 > a.vpn_range.get_start)) ∧
    (∃ ms' m', (MemorySet.mk [] []).mmap ⟨0, fun _ _ => 0⟩ 0 0x2000 3 =
        some (0, ms', m') ∧
      ∀ vpn, VirtAddr.floor 0 ≤ vpn → vpn < VirtAddr.ceil 0x2000 →
        ∃ e, ms'.translate vpn = some e ∧
          e.flags.testBit 0 = true ∧
          e.flags.testBit 1 = (3 : Nat).testBit 0 ∧
          e.flags.testBit 2 = (3 : Nat).testBit 1 ∧
          e.flags.testBit 3 = (3 : Nat).testBit 2 ∧
          e.flags.testBit 4 = true) :=
  ⟨⟨by decide, by decide, by decide, by decide⟩,
    mmap_fresh_range_maps_with_prot (MemorySet.mk [] []) ⟨0, fun _ _ => 0⟩ 0 0x2000 3
      (by decide) (by decide) (by decide) (by decide)⟩

/-! ## Interval tiling: disjoint contained intervals whose lengths sum to the
range length cover the whole range -/

theorem mem_unionIco (iv : List (Nat × Nat)) (x : Nat) :
    x ∈ iv.foldr (fun p s => Finset.Ico p.1 p.2 ∪ s) ∅ ↔
      ∃ p ∈ iv, p.1 ≤ x ∧ x < p.2 := by
  induction iv with
  | nil => simp
  | cons p rest ih =>
    simp only [List.foldr_cons, Finset.mem_union, Finset.mem_Ico, ih,
      List.mem_cons]
    constructor
    · rintro (h | ⟨q, hq, hx⟩)
      · exact ⟨p, Or.inl rfl, h⟩
      · exact ⟨q, Or.inr hq, hx⟩
    · rintro ⟨q, (rfl | hq), hx⟩
      · exact Or.inl hx
      · exact Or.inr ⟨q, hq, hx⟩

theorem disjoint_unionIco (p : Nat × Nat) (iv : List (Nat × Nat))
    (h : ∀ q ∈ iv, p.2 ≤ q.1 ∨ q.2 ≤ p.1) :
    Disjoint (Finset.Ico p.1 p.2)
      (iv.foldr (fun q s => Finset.Ico q.1 q.2 ∪ s) ∅) := by
  induction iv with
  | nil => simp
  | cons q rest ih =>
    simp only [List.foldr_cons, Finset.disjoint_union_right]
    refine ⟨?_, ih (fun t ht => h t (List.mem_cons_of_mem q ht))⟩
    have hq := h q (List.mem_cons_self q rest)
    rw [Finset.disjoint_left]
    intro x hx hx'
    rw [Finset.mem_Ico] at hx hx'
    omega

theorem card_unionIco (iv : List (Nat × Nat))
    (hdisj : iv.Pairwise (fun p q => p.2 ≤ q.1 ∨ q.2 ≤ p.1)) :
    (iv.foldr (fun p s => Finset.Ico p.1 p.2 ∪ s) ∅).card =
      (iv.map (fun p => p.2 - p.1)).sum := by
  induction iv with
  | nil => simp
  | cons p rest ih =>
    rw [List.pairwise_cons] at hdisj
    simp only [List.foldr_cons, List.map_cons, List.sum_cons]
    rw [Finset.card_union_of_disjoint (disjoint_unionIco p rest hdisj.1),
      ih hdisj.2, Nat.card_Ico]

theorem tile_of_sum (l r : Nat) (iv : List (Nat × Nat))
    (hsub : ∀ p ∈ iv, l ≤ p.1 ∧ p.1 < p.2 ∧ p.2 ≤ r)
    (hdisj : iv.Pairwise (fun p q => p.2 ≤ q.1 ∨ q.2 ≤ p.1))
    (hsum : (iv.map (fun p => p.2 - p.1)).sum = r - l) :
    ∀ vpn, l ≤ vpn → vpn < r → ∃ p ∈ iv, p.1 ≤ vpn ∧ vpn < p.2 := by
  intro vpn h1 h2
  have hsubU : iv.foldr (fun p s => Finset.Ico p.1 p.2 ∪ s) ∅ ⊆ Finset.Ico l r := by
    intro x hx
    rw [mem_unionIco] at hx
    obtain ⟨p, hp, hx⟩ := hx
    have := hsub p hp
    rw [Finset.mem_Ico]
    omega
  have hcard : (Finset.Ico l r).card ≤
      (iv.foldr (fun p s => Finset.Ico p.1 p.2 ∪ s) ∅).card := by
    rw [card_unionIco iv hdisj, hsum, Nat.card_Ico]
  have hEq := Finset.eq_of_subset_of_card_le hsubU hcard
  have hv : vpn ∈ Finset.Ico l r := by rw [Finset.mem_Ico]; omega
  rw [← hEq, mem_unionIco] at hv
  exact hv

theorem filterMap_if {α : Type} (L : List α) (p : α → Prop) [DecidablePred p]
    (g : α → Nat) :
    (L.filterMap fun a => if p a then some (g a) else none) =
      (L.filter fun a => decide (p a)).map g := by
  induction L with
  | nil => rfl
  | cons a rest ih =>
    by_cases h : p a <;>
      simp [List.filterMap_cons, List.filter_cons, h, ih]

/-! ## Characterization of the `munmap` unmap-and-shrink loop -/

theorem munmap_areas_spec (lvpn rvpn : Nat) :
    ∀ (L : List MapArea) (pt : PageTable),
      ((munmap_areas lvpn rvpn L pt).1.filter
          (fun a => decide (a.vpn_range.get_start < a.vpn_range.get_end)) =
        L.filter (fun a =>
          decide (a.vpn_range.get_start < a.vpn_range.get_end) &&
          !(decide (containedIn lvpn rvpn a)))) ∧
      (∀ vpn, (munmap_areas lvpn rvpn L pt).2.translate vpn =
        if ∃ a ∈ L, containedIn lvpn rvpn a ∧
            a.vpn_range.get_start ≤ vpn ∧ vpn < a.vpn_range.get_end
        then none else pt.translate vpn) := by
  intro L
  induction L with
  | nil =>
    intro pt
    refine ⟨rfl, ?_⟩
    intro vpn
    rw [if_neg (by simp)]
    rfl
  | cons a rest ih =>
    intro pt
    by_cases hc : containedIn lvpn rvpn a
    · obtain ⟨u1, u2, u3, u4, u5⟩ := unmap_spec a pt
      have hred : munmap_areas lvpn rvpn (a :: rest) pt =
          (({ (a.unmap pt).1 with
              vpn_range := ⟨a.vpn_range.get_start, a.vpn_range.get_start⟩ } :
              MapArea) :: (munmap_areas lvpn rvpn rest (a.unmap pt).2).1,
            (munmap_areas lvpn rvpn rest (a.unmap pt).2).2) := by
        simp only [munmap_areas]
        have hc' : lvpn ≤ a.vpn_range.get_start ∧ a.vpn_range.get_end ≤ rvpn := hc
        rw [if_pos hc']
      obtain ⟨i1, i2⟩ := ih (a.unmap pt).2
      rw [hred]
      constructor
      · simp only [List.filter_cons]
        rw [if_neg (by simp [VPNRange.get_start, VPNRange.get_end]),
          if_neg (by simp [hc]), i1]
      · intro vpn
        simp only [i2 vpn, u4 vpn]
        by_cases h1 : ∃ x ∈ rest, containedIn lvpn rvpn x ∧
            x.vpn_range.get_start ≤ vpn ∧ vpn < x.vpn_range.get_end
        · rw [if_pos h1, if_pos ?_]
          obtain ⟨x, hx, hpx⟩ := h1
          exact ⟨x, List.mem_cons_of_mem a hx, hpx⟩
        · rw [if_neg h1]
          by_cases h2 : a.vpn_range.l ≤ vpn ∧ vpn < a.vpn_range.r
          · rw [if_pos h2, if_pos ?_]
            exact ⟨a, List.mem_cons_self a rest, hc, h2⟩
          · rw [if_neg h2, if_neg ?_]
            rintro ⟨x, hx, hpx⟩
            rcases List.mem_cons.mp hx with rfl | hx'
            · exact h2 ⟨hpx.2.1, hpx.2.2⟩
            · exact h1 ⟨x, hx', hpx⟩
    · have hred : munmap_areas lvpn rvpn (a :: rest) pt =
          (a :: (munmap_areas lvpn rvpn rest pt).1,
            (munmap_areas lvpn rvpn rest pt).2) := by
        simp only [munmap_areas]
        rw [if_neg (show ¬(lvpn ≤ a.vpn_range.get_start ∧
          a.vpn_range.get_end ≤ rvpn) from fun h => hc h)]
      obtain ⟨i1, i2⟩ := ih pt
      rw [hred]
      constructor
      · simp only [List.filter_cons]
        by_cases hne : a.vpn_range.get_start < a.vpn_range.get_end
        · rw [if_pos (by simp [hne]), if_pos (by simp [hne, hc]), i1]
        · rw [if_neg (by simp [hne]), if_neg (by simp [hne]), i1]
      · intro vpn
        rw [i2 vpn]
        by_cases h1 : ∃ x ∈ rest, containedIn lvpn rvpn x ∧
            x.vpn_range.get_start ≤ vpn ∧ vpn < x.vpn_range.get_end
        · rw [if_pos h1, if_pos ?_]
          obtain ⟨x, hx, hpx⟩ := h1
          exact ⟨x, List.mem_cons_of_mem a hx, hpx⟩
        · rw [if_neg h1, if_neg ?_]
          rintro ⟨x, hx, hpx⟩
          rcases List.mem_cons.mp hx with rfl | hx'
          · exact hc hpx.1
          · exact h1 ⟨x, hx', hpx⟩

/-! ## Claim C2: `munmap` over an exactly-covered range -/

/-- C2: when the regions fully contained in the requested page range cover
exactly its length (given the standing invariants that regions are non-empty
and pairwise disjoint), `MemorySet::munmap` returns `0`, every region fully
contained in the range is unmapped and removed from the region list
(`translate` afterwards returns absent for every page of the range), and
every region that only partially overlaps the range is left untouched with
all its mappings intact. -/
theorem munmap_exact_coverage_unmaps (ms : MemorySet) (start end_ : Nat)
    (hne : ∀ a ∈ ms.areas, a.vpn_range.get_start < a.vpn_range.get_end)
    (hdisj : ms.areas.Pairwise rangesDisjoint)
    (hcov : (ms.areas.filterMap (fun area =>
        if VirtAddr.floor start ≤ area.vpn_range.get_start ∧
            area.vpn_range.get_end ≤ VirtAddr.ceil end_ then
          some (area.vpn_range.get_end - area.vpn_range.get_start)
        else none)).sum = VirtAddr.ceil end_ - VirtAddr.floor start) :
    (ms.munmap start end_).1 = 0 ∧
    (∀ vpn, VirtAddr.floor start ≤ vpn → vpn < VirtAddr.ceil end_ →
      (ms.munmap start end_).2.translate vpn = none) ∧
    (ms.munmap start end_).2.areas = ms.areas.filter
      (fun a => !(decide (containedIn (VirtAddr.floor start) (VirtAddr.ceil end_) a))) ∧
    (∀ a ∈ ms.areas,
      ¬containedIn (VirtAddr.floor start) (VirtAddr.ceil end_) a →
      a ∈ (ms.munmap start end_).2.areas ∧
      ∀ vpn, a.vpn_range.get_start ≤ vpn → vpn < a.vpn_range.get_end →
        (ms.munmap start end_).2.translate vpn = ms.translate vpn) := by
  obtain ⟨mfil, mtrans⟩ :=
    munmap_areas_spec (VirtAddr.floor start) (VirtAddr.ceil end_) ms.areas ms.page_table
  have hmu : ms.munmap start end_ =
      (0, { page_table :=
              (munmap_areas (VirtAddr.floor start) (VirtAddr.ceil end_)
                ms.areas ms.page_table).2,
            areas :=
              (munmap_areas (VirtAddr.floor start) (VirtAddr.ceil end_)
                ms.areas ms.page_table).1.filter
                (fun area =>
                  decide (area.vpn_range.get_start < area.vpn_range.get_end)) }) := by
    simp only [MemorySet.munmap]
    rw [if_neg (by rw [hcov]; omega)]
  -- the contained regions tile the whole requested range
  have htile : ∀ vpn, VirtAddr.floor start ≤ vpn → vpn < VirtAddr.ceil end_ →
      ∃ c ∈ ms.areas, containedIn (VirtAddr.floor start) (VirtAddr.ceil end_) c ∧
        c.vpn_range.get_start ≤ vpn ∧ vpn < c.vpn_range.get_end := by
    intro vpn h1 h2
    have ht := tile_of_sum (VirtAddr.floor start) (VirtAddr.ceil end_)
      ((ms.areas.filter (fun a =>
          decide (containedIn (VirtAddr.floor start) (VirtAddr.ceil end_) a))).map
        (fun a => (a.vpn_range.get_start, a.vpn_range.get_end)))
      ?_ ?_ ?_ vpn h1 h2
    · obtain ⟨p, hp, hvp⟩ := ht
      rw [List.mem_map] at hp
      obtain ⟨c, hc, rfl⟩ := hp
      rw [List.mem_filter] at hc
      exact ⟨c, hc.1, of_decide_eq_true hc.2, hvp⟩
    · intro p hp
      rw [List.mem_map] at hp
      obtain ⟨c, hc, rfl⟩ := hp
      rw [List.mem_filter] at hc
      have hcc := of_decide_eq_true hc.2
      have hcn := hne c hc.1
      exact ⟨hcc.1, hcn, hcc.2⟩
    · rw [List.pairwise_map]
      exact (hdisj.filter _).imp (fun h => h)
    · rw [List.map_map]
      rw [filterMap_if ms.areas (fun area =>
        VirtAddr.floor start ≤ area.vpn_range.get_start ∧
          area.vpn_range.get_end ≤ VirtAddr.ceil end_)
        (fun area => area.vpn_range.get_end - area.vpn_range.get_start)] at hcov
      rw [← hcov]
      congr 1
  have hareas : (ms.munmap start end_).2.areas = ms.areas.filter
      (fun a => !(decide (containedIn (VirtAddr.floor start) (VirtAddr.ceil end_) a))) := by
    rw [hmu]
    simp only []
    rw [mfil]
    apply List.filter_congr
    intro a ha
    rw [decide_eq_true (hne a ha), Bool.true_and]
  refine ⟨by rw [hmu], ?_, hareas, ?_⟩
  · intro vpn h1 h2
    rw [hmu]
    simp only [MemorySet.translate]
    rw [mtrans vpn, if_pos (htile vpn h1 h2)]
  · intro a ham hnc
    constructor
    · rw [hareas, List.mem_filter]
      exact ⟨ham, by simp [hnc]⟩
    · intro vpn hv1 hv2
      rw [hmu]
      simp only [MemorySet.translate]
      rw [mtrans vpn, if_neg ?_]
      rintro ⟨c, hcm, hcc, hcr⟩
      have hac : a ≠ c := fun heq => hnc (heq ▸ hcc)
      have hrd : rangesDisjoint a c :=
        List.Pairwise.forall (fun x y h => Or.symm h) hdisj ham hcm hac
      rcases hrd with h | h <;>
        simp only [rangesDisjoint, VPNRange.get_start, VPNRange.get_end] at * <;> omega

/-- Witness for C2: unmapping `[0, 0x2000)` when `[0,1)` and `[1,2)` are the
mapped regions empties the range and the region list. -/
theorem munmap_exact_coverage_unmaps_witness :
    ((∀ a ∈ (MemorySet.mk [(0, ⟨5, 23⟩), (1, ⟨6, 23⟩)]
        [⟨⟨0, 1⟩, [(0, 5)], MapType.Framed, 22⟩,
         ⟨⟨1, 2⟩, [(1, 6)], MapType.Framed, 22⟩]).areas,
      a.vpn_range.get_start < a.vpn_range.get_end) ∧
     (MemorySet.mk [(0, ⟨5, 23⟩), (1, ⟨6, 23⟩)]
        [⟨⟨0, 1⟩, [(0, 5)], MapType.Framed, 22⟩,
         ⟨⟨1, 2⟩, [(1, 6)], MapType.Framed, 22⟩]).areas.Pairwise rangesDisjoint) ∧
    ((MemorySet.mk [(0, ⟨5, 23⟩), (1, ⟨6, 23⟩)]
        [⟨⟨0, 1⟩, [(0, 5)], MapType.Framed, 22⟩,
         ⟨⟨1, 2⟩, [(1, 6)], MapType.Framed, 22⟩]).munmap 0 0x2000).1 = 0 ∧
    (∀ vpn, VirtAddr.floor 0 ≤ vpn → vpn < VirtAddr.ceil 0x2000 →
      ((MemorySet.mk [(0, ⟨5, 23⟩), (1, ⟨6, 23⟩)]
        [⟨⟨0, 1⟩, [(0, 5)], MapType.Framed, 22⟩,
         ⟨⟨1, 2⟩, [(1, 6)], MapType.Framed, 22⟩]).munmap 0 0x2000).2.translate vpn
        = none) := by
  have h := munmap_exact_coverage_unmaps
    (MemorySet.mk [(0, ⟨5, 23⟩), (1, ⟨6, 23⟩)]
      [⟨⟨0, 1⟩, [(0, 5)], MapType.Framed, 22⟩,
       ⟨⟨1, 2⟩, [(1, 6)], MapType.Framed, 22⟩]) 0 0x2000
    (by decide) (by decide) (by decide)
  exact ⟨⟨by decide, by decide⟩, h.1, h.2.1⟩

/-! ## Claim C7: syscall-facing wrapper validation and delegation -/

/-- C7: the syscall-facing `mmap` wrapper returns `0` when `len` is zero;
otherwise it returns `-1` without touching any address space when `start` is
not page-aligned, when `prot` has any bit above bit 2 set, or when none of the
low three bits of `prot` is set; the `munmap` wrapper likewise returns `0`
for zero `len` and `-1` for unaligned `start`; in all other cases each
wrapper delegates to the current task's address-space primitive and returns
its status. -/
theorem syscall_wrappers_validate (task : Option (MemorySet × Machine))
    (start len prot : Nat) :
    (len = 0 → mmap task start len prot = some (0, task)) ∧
    (len ≠ 0 → (prot >>> 3 ≠ 0 ∨ prot &&& 0x7 = 0 ∨ start % 4096 ≠ 0) →
      mmap task start len prot = some (-1, task)) ∧
    (len = 0 → munmap task start len = some (0, task)) ∧
    (len ≠ 0 → start % 4096 ≠ 0 → munmap task start len = some (-1, task)) ∧
    (∀ ms m, len ≠ 0 →
      ¬(prot >>> 3 ≠ 0 ∨ prot &&& 0x7 = 0 ∨ start % 4096 ≠ 0) →
      task = some (ms, m) →
      mmap task start len prot =
        (ms.mmap m start (start + len) prot).map
          (fun r => (r.1, some (r.2.1, r.2.2)))) ∧
    (∀ ms m, len ≠ 0 → start % 4096 = 0 → task = some (ms, m) →
      munmap task start len =
        some ((ms.munmap start (start + len)).1,
          some ((ms.munmap start (start + len)).2, m))) := by
  refine ⟨?_, ?_, ?_, ?_, ?_, ?_⟩
  · intro h
    simp [mmap, h]
  · intro h1 h2
    simp only [mmap]
    rw [if_neg h1, if_pos h2]
  · intro h
    simp [munmap, h]
  · intro h1 h2
    simp only [munmap]
    rw [if_neg h1, if_pos h2]
  · intro ms m h1 h2 ht
    subst ht
    simp only [mmap]
    rw [if_neg h1, if_neg h2]
    cases hr : ms.mmap m start (start + len) prot with
    | none => simp
    | some r => simp
  · intro ms m h1 h2 ht
    subst ht
    simp only [munmap]
    rw [if_neg h1, if_neg (by omega)]

/-- Witness for C7 at a concrete task state and arguments. -/
theorem syscall_wrappers_validate_witness :
    ((4096 : Nat) = 0 →
      mmap (some (MemorySet.mk [] [], ⟨0, fun _ _ => 0⟩)) 0 4096 3 =
        some (0, some (MemorySet.mk [] [], ⟨0, fun _ _ => 0⟩))) ∧
    ((4096 : Nat) ≠ 0 →
      ((3 : Nat) >>> 3 ≠ 0 ∨ (3 : Nat) &&& 0x7 = 0 ∨ (0 : Nat) % 4096 ≠ 0) →
      mmap (some (MemorySet.mk [] [], ⟨0, fun _ _ => 0⟩)) 0 4096 3 =
        some (-1, some (MemorySet.mk [] [], ⟨0, fun _ _ => 0⟩))) ∧
    ((4096 : Nat) = 0 →
      munmap (some (MemorySet.mk [] [], ⟨0, fun _ _ => 0⟩)) 0 4096 =
        some (0, some (MemorySet.mk [] [], ⟨0, fun _ _ => 0⟩))) ∧
    ((4096 : Nat) ≠ 0 → (0 : Nat) % 4096 ≠ 0 →
      munmap (some (MemorySet.mk [] [], ⟨0, fun _ _ => 0⟩)) 0 4096 =
        some (-1, some (MemorySet.mk [] [], ⟨0, fun _ _ => 0⟩))) ∧
    (∀ ms m, (4096 : Nat) ≠ 0 →
      ¬((3 : Nat) >>> 3 ≠ 0 ∨ (3 : Nat) &&& 0x7 = 0 ∨ (0 : Nat) % 4096 ≠ 0) →
      some (MemorySet.mk [] [], (⟨0, fun _ _ => 0⟩ : Machine)) = some (ms, m) →
      mmap (some (MemorySet.mk [] [], ⟨0, fun _ _ => 0⟩)) 0 4096 3 =
        (ms.mmap m 0 (0 + 4096) 3).map
          (fun r => (r.1, some (r.2.1, r.2.2)))) ∧
    (∀ ms m, (4096 : Nat) ≠ 0 → (0 : Nat) % 4096 = 0 →
      some (MemorySet.mk [] [], (⟨0, fun _ _ => 0⟩ : Machine)) = some (ms, m) →
      munmap (some (MemorySet.mk [] [], ⟨0, fun _ _ => 0⟩)) 0 4096 =
        some ((ms.munmap 0 (0 + 4096)).1,
          some ((ms.munmap 0 (0 + 4096)).2, m))) :=
  syscall_wrappers_validate
    (some (MemorySet.mk [] [], ⟨0, fun _ _ => 0⟩)) 0 4096 3

/-! ## Claim C10: the `mmap` primitive does not validate `prot` -/

theorem shift_mask_eq (b : Nat) (hb : b < 256) :
    (b.testBit 4 = false ∧ b.testBit 5 = false ∧ b.testBit 6 = false) ↔
      (b * 2 % 256) &&& 0b11100001 = 0 := by
  interval_cases b <;> decide

/-- C10: `MemorySet::mmap` performs no validation of `prot`: it shifts the
low byte left one bit and unwraps `MapPermission::from_bits`.  When bits 4, 5
and 6 of the low byte are clear the unwrap succeeds (in particular under the
syscall wrapper's precondition `prot & 7 ≠ 0 ∧ prot >> 3 = 0`), and bit 3 of
`prot` lands on the User permission bit, which the primitive forces on anyway;
when bit 4, 5 or 6 of the low byte is set, the primitive panics (modelled as
`none`) instead of returning `-1`. -/
theorem mmap_primitive_prot_unchecked (ms : MemorySet) (m : Machine)
    (start end_ prot : Nat)
    (hfree : ∀ a ∈ ms.areas,
      ¬(a.vpn_range.get_start < a.vpn_range.get_end ∧
        VirtAddr.floor start < a.vpn_range.get_end ∧
        VirtAddr.ceil end_ > a.vpn_range.get_start)) :
    ((prot % 256).testBit 4 = false ∧ (prot % 256).testBit 5 = false ∧
        (prot % 256).testBit 6 = false →
      ∃ a' ms' m', ms.mmap m start end_ prot = some (0, ms', m') ∧
        ms'.areas = ms.areas ++ [a'] ∧
        a'.map_perm = ((prot % 256) * 2 % 256) ||| MapPermission.U ∧
        a'.map_perm.testBit 4 = true) ∧
    ((prot % 256).testBit 4 = true ∨ (prot % 256).testBit 5 = true ∨
        (prot % 256).testBit 6 = true →
      ms.mmap m start end_ prot = none) ∧
    (prot &&& 0x7 ≠ 0 ∧ prot >>> 3 = 0 →
      (ms.mmap m start end_ prot).isSome = true) := by
  have hguard : (ms.areas.any (fun area =>
      decide (area.vpn_range.get_start < area.vpn_range.get_end) &&
      decide (VirtAddr.floor start < area.vpn_range.get_end) &&
      decide (VirtAddr.ceil end_ > area.vpn_range.get_start))) = false := by
    rw [List.any_eq_false]
    intro a haa
    have h := hfree a haa
    simp only [Bool.and_eq_true, decide_eq_true_eq]
    tauto
  have hmod : prot % 256 < 256 := Nat.mod_lt _ (by norm_num)
  refine ⟨?_, ?_, ?_⟩
  · intro hbits
    have hmask := (shift_mask_eq (prot % 256) hmod).mp hbits
    have hfb : MapPermission.from_bits ((prot % 256) * 2 % 256) =
        some ((prot % 256) * 2 % 256) := by
      unfold MapPermission.from_bits
      rw [if_pos hmask]
    obtain ⟨s1, s2, s3, s4, s5, s6, s7⟩ :=
      map_framed_spec
        (MapArea.new (VirtAddr.floor start * PAGE_SIZE)
          (VirtAddr.ceil end_ * PAGE_SIZE) MapType.Framed
          ((prot % 256) * 2 % 256 ||| MapPermission.U))
        ms.page_table m rfl
    simp only [MemorySet.mmap, hguard, Bool.false_eq_true, if_false, hfb,
      MemorySet.insert_framed_area, MemorySet.pushArea]
    refine ⟨_, _, _, rfl, rfl, ?_, ?_⟩
    · rw [s3]
      rfl
    · rw [s3]
      show (((prot % 256) * 2 % 256) ||| (1 <<< 4)).testBit 4 = true
      rw [Nat.testBit_or]
      simp only [Bool.or_eq_true]
      exact Or.inr (by decide)
  · intro h
    have hmask : ¬((prot % 256) * 2 % 256) &&& 0b11100001 = 0 := by
      intro hm
      have hb := (shift_mask_eq (prot % 256) hmod).mpr hm
      rcases h with h | h | h <;> rw [h] at hb <;> simp at hb
    have hfb : MapPermission.from_bits ((prot % 256) * 2 % 256) = none := by
      unfold MapPermission.from_bits
      rw [if_neg hmask]
    simp only [MemorySet.mmap, hguard, Bool.false_eq_true, if_false, hfb]
  · rintro ⟨h1, h2⟩
    have hlt : prot < 8 := by
      rw [Nat.shiftRight_eq_div_pow] at h2
      omega
    have hbits : (prot % 256).testBit 4 = false ∧ (prot % 256).testBit 5 = false ∧
        (prot % 256).testBit 6 = false := by
      have hp : prot % 256 = prot := by omega
      rw [hp]
      interval_cases prot <;> refine ⟨by decide, by decide, by decide⟩
    have hmask := (shift_mask_eq (prot % 256) hmod).mp hbits
    have hfb : MapPermission.from_bits ((prot % 256) * 2 % 256) =
        some ((prot % 256) * 2 % 256) := by
      unfold MapPermission.from_bits
      rw [if_pos hmask]
    simp only [MemorySet.mmap, hguard, Bool.false_eq_true, if_false, hfb,
      Option.isSome_some]

/-- Witness for C10 at `prot = 8` (bit 3 only: the primitive accepts it and
maps with User permission only, where the wrapper would have rejected it). -/
theorem mmap_primitive_prot_unchecked_witness :
    (∀ a ∈ (MemorySet.mk [] []).areas,
      ¬(a.vpn_range.get_start < a.vpn_range.get_end ∧
        VirtAddr.floor 0 < a.vpn_range.get_end ∧
        VirtAddr.ceil 0x1000 > a.vpn_range.get_start)) ∧
    (((8 : Nat) % 256).testBit 4 = false ∧ ((8 : Nat) % 256).testBit 5 = false ∧
        ((8 : Nat) % 256).testBit 6 = false →
      ∃ a' ms' m', (MemorySet.mk [] []).mmap ⟨0, fun _ _ => 0⟩ 0 0x1000 8 =
          some (0, ms', m') ∧
        ms'.areas = (MemorySet.mk [] []).areas ++ [a'] ∧
        a'.map_perm = (((8 : Nat) % 256) * 2 % 256) ||| MapPermission.U ∧
        a'.map_perm.testBit 4 = true) :=
  ⟨by decide,
    ((mmap_primitive_prot_unchecked (MemorySet.mk [] []) ⟨0, fun _ _ => 0⟩
      0 0x1000 8 (by decide)).1)⟩

/-! ## Characterization of `MapArea::map` for `Identical` areas -/

theorem map_go_identical (n : Nat) :
    ∀ (s : Nat) (a : MapArea) (pt : PageTable) (m : Machine),
      a.map_type = MapType.Identical →
      (map_go a pt m (List.range' s n)).1 = a ∧
      (map_go a pt m (List.range' s n)).2.2 = m ∧
      (∀ vpn, (map_go a pt m (List.range' s n)).2.1.translate vpn =
        if s ≤ vpn ∧ vpn < s + n then some ⟨vpn, a.map_perm ||| 1⟩
        else pt.translate vpn) := by
  induction n with
  | zero =>
    intro s a pt m ha
    refine ⟨rfl, rfl, ?_⟩
    intro vpn
    show pt.translate vpn = _
    rw [if_neg (by omega)]
  | succ n ih =>
    intro s a pt m ha
    obtain ⟨rg, df, ty, perm⟩ := a
    have ha' : ty = MapType.Identical := ha
    subst ha'
    rw [List.range'_succ]
    simp only [map_go, MapArea.map_one]
    obtain ⟨i1, i2, i3⟩ := ih (s + 1) ⟨rg, df, MapType.Identical, perm⟩
      (pt.map s s perm) m rfl
    refine ⟨i1, i2, ?_⟩
    intro vpn
    rw [i3 vpn, translate_map]
    by_cases h1 : s + 1 ≤ vpn ∧ vpn < s + 1 + n
    · rw [if_pos h1, if_pos (by omega)]
    · rw [if_neg h1]
      by_cases h2 : vpn = s
      · rw [if_pos h2, if_pos (by omega)]
        subst h2
        rfl
      · rw [if_neg h2, if_neg (by omega)]

/-! ## Invariant-transfer helpers for the Region invariant -/

theorem framesKeys_congr (pt pt' : PageTable) (a : MapArea)
    (h : ∀ vpn, a.vpn_range.get_start ≤ vpn → vpn < a.vpn_range.get_end →
      (pt'.translate vpn).isSome = (pt.translate vpn).isSome) :
    framesKeysExactlyMapped pt a → framesKeysExactlyMapped pt' a := by
  rintro ⟨h1, h2⟩
  refine ⟨h1, ?_⟩
  intro vpn hv
  have hb := hv
  simp only [VPNRange.toList, List.mem_range'_1] at hb
  have hl : a.vpn_range.get_start ≤ vpn := by
    simp only [VPNRange.get_start]; omega
  have hr2 : vpn < a.vpn_range.get_end := by
    simp only [VPNRange.get_end]; omega
  rw [h vpn hl hr2]
  exact h2 vpn hv

theorem regionFramesInv_congr (pt pt' : PageTable) (a : MapArea)
    (h : ∀ vpn, a.vpn_range.get_start ≤ vpn → vpn < a.vpn_range.get_end →
      (pt'.translate vpn).isSome = (pt.translate vpn).isSome) :
    regionFramesInv pt a → regionFramesInv pt' a := by
  rintro ⟨h1, h2⟩
  exact ⟨fun ht => framesKeys_congr pt pt' a h (h1 ht), h2⟩

/-- An empty region satisfies the Region invariant as soon as its
`data_frames` is empty, whatever the page table says. -/
theorem regionFramesInv_of_empty (pt : PageTable) (a : MapArea)
    (hr : a.vpn_range.get_end ≤ a.vpn_range.get_start)
    (hdf : a.data_frames = []) : regionFramesInv pt a := by
  constructor
  · intro _
    constructor
    · intro e he
      rw [hdf] at he
      simp at he
    · intro vpn hv
      simp only [VPNRange.toList, List.mem_range'_1] at hv
      simp only [VPNRange.get_start, VPNRange.get_end] at hr
      omega
  · intro _
    exact hdf

/-! ## Small `DataFrames` membership lemmas -/

theorem mem_erase (df : DataFrames) (w : Nat) :
    ∀ e ∈ df.erase w, e ∈ df := by
  induction df with
  | nil => intro e he; exact absurd he (by simp [DataFrames.erase])
  | cons x rest ih =>
    intro e he
    simp only [DataFrames.erase] at he
    by_cases hx : x.1 = w
    · rw [if_pos hx] at he
      exact List.mem_cons_of_mem x (ih e he)
    · rw [if_neg hx] at he
      rcases List.mem_cons.mp he with rfl | he'
      · exact List.mem_cons_self e rest
      · exact List.mem_cons_of_mem x (ih e he')

theorem lookup_isSome_of_mem (df : DataFrames) :
    ∀ e ∈ df, (df.lookup e.1).isSome = true := by
  induction df with
  | nil => intro e he; exact absurd he (by simp)
  | cons x rest ih =>
    intro e he
    simp only [DataFrames.lookup]
    by_cases hx : x.1 = e.1
    · rw [if_pos hx]; rfl
    · rw [if_neg hx]
      rcases List.mem_cons.mp he with rfl | he'
      · exact absurd rfl hx
      · exact ih e he'

theorem mem_of_lookup (df : DataFrames) (k p : Nat) :
    df.lookup k = some p → ∃ e ∈ df, e.1 = k := by
  induction df with
  | nil => intro h; exact absurd h (by simp [DataFrames.lookup])
  | cons x rest ih =>
    intro h
    simp only [DataFrames.lookup] at h
    by_cases hx : x.1 = k
    · exact ⟨x, List.mem_cons_self x rest, hx⟩
    · rw [if_neg hx] at h
      obtain ⟨e, he, hek⟩ := ih h
      exact ⟨e, List.mem_cons_of_mem x he, hek⟩

/-! ## Characterization of `remove_area_with_start_vpn`'s search loop -/

theorem remove_area_go_char (sv : Nat) :
    ∀ (L : List MapArea) (pt : PageTable),
      ((∀ a ∈ L, a.vpn_range.get_start ≠ sv) ∧
        remove_area_go sv L pt = (L, pt)) ∨
      (∃ pre a0 post, L = pre ++ a0 :: post ∧
        a0.vpn_range.get_start = sv ∧
        remove_area_go sv L pt = (pre ++ post, (a0.unmap pt).2)) := by
  intro L
  induction L with
  | nil =>
    intro pt
    exact Or.inl ⟨by simp, rfl⟩
  | cons a rest ih =>
    intro pt
    by_cases ha : a.vpn_range.get_start = sv
    · refine Or.inr ⟨[], a, rest, by simp, ha, ?_⟩
      simp only [remove_area_go]
      rw [if_pos ha]
      rfl
    · rcases ih pt with ⟨hno, heq⟩ | ⟨pre, a0, post, hL, ha0, heq⟩
      · refine Or.inl ⟨?_, ?_⟩
        · intro x hx
          rcases List.mem_cons.mp hx with rfl | hx'
          · exact ha
          · exact hno x hx'
        · simp only [remove_area_go]
          rw [if_neg ha, heq]
      · refine Or.inr ⟨a :: pre, a0, post, by rw [hL, List.cons_append], ha0, ?_⟩
        simp only [remove_area_go]
        rw [if_neg ha, heq, List.cons_append]

/-! ## Preservation of the (Framed-only) Region invariant by each operation -/

theorem map_one_preserves_inv (a : MapArea) (pt : PageTable) (m : Machine)
    (vpn : Nat) (hinv : regionFramesInv pt a)
    (hin : a.vpn_range.get_start ≤ vpn ∧ vpn < a.vpn_range.get_end) :
    regionFramesInv (a.map_one pt m vpn).2.1 (a.map_one pt m vpn).1 := by
  obtain ⟨rg, df, ty, perm⟩ := a
  cases ty
  case Identical =>
    simp only [MapArea.map_one]
    exact ⟨fun ht => MapType.noConfusion ht, fun _ => hinv.2 rfl⟩
  case Framed =>
    obtain ⟨h1, h2⟩ := hinv.1 rfl
    simp only [MapArea.map_one, frame_alloc]
    refine ⟨fun _ => ⟨?_, ?_⟩, fun ht => MapType.noConfusion ht⟩
    · intro e he
      simp only [DataFrames.insert] at he
      rcases List.mem_cons.mp he with rfl | he'
      · exact hin
      · exact h1 e (mem_erase df vpn e he')
    · intro w hw
      rw [translate_map, lookup_insert]
      by_cases hwv : w = vpn
      · rw [if_pos hwv, if_pos hwv]
        rfl
      · rw [if_neg hwv, if_neg hwv]
        exact h2 w hw

theorem unmap_one_preserves_inv (a : MapArea) (pt : PageTable) (vpn : Nat)
    (hinv : regionFramesInv pt a) :
    regionFramesInv (a.unmap_one pt vpn).2 (a.unmap_one pt vpn).1 := by
  obtain ⟨rg, df, ty, perm⟩ := a
  cases ty
  case Identical =>
    simp only [MapArea.unmap_one]
    exact ⟨fun ht => MapType.noConfusion ht, fun _ => hinv.2 rfl⟩
  case Framed =>
    obtain ⟨h1, h2⟩ := hinv.1 rfl
    simp only [MapArea.unmap_one]
    refine ⟨fun _ => ⟨?_, ?_⟩, fun ht => MapType.noConfusion ht⟩
    · intro e he
      exact h1 e (mem_erase df vpn e he)
    · intro w hw
      rw [translate_unmap, lookup_erase]
      by_cases hwv : w = vpn
      · rw [if_pos hwv, if_pos hwv]
        rfl
      · rw [if_neg hwv, if_neg hwv]
        exact h2 w hw

theorem map_preserves_inv (a : MapArea) (pt : PageTable) (m : Machine)
    (hdf : a.data_frames = []) :
    regionFramesInv (a.map pt m).2.1 (a.map pt m).1 := by
  cases hty : a.map_type
  case Identical =>
    obtain ⟨i1, i2, i3⟩ :=
      map_go_identical (a.vpn_range.r - a.vpn_range.l) a.vpn_range.l a pt m hty
    have hfix : (a.map pt m).1 = a := i1
    refine ⟨fun ht => ?_, fun _ => ?_⟩
    · rw [hfix] at ht
      rw [hty] at ht
      exact MapType.noConfusion ht
    · rw [hfix, hdf]
  case Framed =>
    obtain ⟨s1, s2, s3, s4, s5, s6, s7⟩ := map_framed_spec a pt m hty
    refine ⟨fun _ => ⟨?_, ?_⟩, fun ht => ?_⟩
    · intro e he
      have hs := lookup_isSome_of_mem (a.map pt m).1.data_frames e he
      rw [s6 e.1] at hs
      by_cases hc : a.vpn_range.l ≤ e.1 ∧
          e.1 < a.vpn_range.l + (a.vpn_range.r - a.vpn_range.l)
      · rw [s1]
        simp only [VPNRange.get_start, VPNRange.get_end]
        omega
      · rw [if_neg hc, hdf] at hs
        exact absurd hs (by simp [DataFrames.lookup])
    · intro w hw
      rw [s1] at hw
      simp only [VPNRange.toList, List.mem_range'_1] at hw
      rw [s5 w, s6 w, if_pos (by omega), if_pos (by omega)]
      rfl
    · rw [s2] at ht
      exact MapType.noConfusion ht

theorem unmap_preserves_inv (a : MapArea) (pt : PageTable)
    (hinv : regionFramesInv pt a) :
    regionFramesInv (a.unmap pt).2 (a.unmap pt).1 := by
  obtain ⟨u1, u2, u3, u4, u5, u6⟩ := unmap_spec a pt
  refine ⟨fun ht => ⟨?_, ?_⟩, fun ht => ?_⟩
  · intro e he
    have hty : a.map_type = MapType.Framed := by rw [← u2]; exact ht
    obtain ⟨h1, h2⟩ := hinv.1 hty
    have hs := lookup_isSome_of_mem (a.unmap pt).1.data_frames e he
    rw [u5 e.1] at hs
    by_cases hc : (a.vpn_range.l ≤ e.1 ∧ e.1 < a.vpn_range.r) ∧
        a.map_type = MapType.Framed
    · rw [if_pos hc] at hs
      exact absurd hs (by simp)
    · rw [if_neg hc] at hs
      rw [Option.isSome_iff_exists] at hs
      obtain ⟨p, hp⟩ := hs
      obtain ⟨e', he', hek⟩ := mem_of_lookup a.data_frames e.1 p hp
      have := h1 e' he'
      rw [u1]
      rw [hek] at this
      exact this
  · intro w hw
    rw [u1] at hw
    simp only [VPNRange.toList, List.mem_range'_1] at hw
    have hty : a.map_type = MapType.Framed := by rw [← u2]; exact ht
    rw [u4 w, u5 w, if_pos (by omega), if_pos ⟨by omega, hty⟩]
    rfl
  · have hty : a.map_type = MapType.Identical := by rw [← u2]; exact ht
    rw [u6 hty]
    exact hinv.2 hty

theorem empty_area_df_nil (pt : PageTable) (x : MapArea)
    (hinv : regionFramesInv pt x)
    (hxe : x.vpn_range.get_end ≤ x.vpn_range.get_start) :
    x.data_frames = [] := by
  cases hty : x.map_type
  case Identical => exact hinv.2 hty
  case Framed =>
    obtain ⟨h1, _⟩ := hinv.1 hty
    rcases hx : x.data_frames with _ | ⟨e, rest⟩
    · rfl
    · have := h1 e (by rw [hx]; exact List.mem_cons_self e rest)
      omega

theorem mmap_preserves_inv (ms : MemorySet) (m : Machine)
    (start end_ prot : Nat) (res : Int × MemorySet × Machine)
    (hinv : ms.framesInv) (heq : ms.mmap m start end_ prot = some res) :
    res.2.1.framesInv := by
  by_cases hg : (ms.areas.any (fun area =>
      decide (area.vpn_range.get_start < area.vpn_range.get_end) &&
      decide (VirtAddr.floor start < area.vpn_range.get_end) &&
      decide (VirtAddr.ceil end_ > area.vpn_range.get_start))) = true
  · have hred : ms.mmap m start end_ prot = some (-1, ms, m) := by
      simp only [MemorySet.mmap]
      rw [if_pos hg]
    rw [hred] at heq
    injection heq with h
    rw [← h]
    exact hinv
  · rw [Bool.not_eq_true] at hg
    cases hfb : MapPermission.from_bits ((prot % 256) * 2 % 256) with
    | none =>
      have hred : ms.mmap m start end_ prot = none := by
        simp only [MemorySet.mmap, hg, Bool.false_eq_true, if_false, hfb]
      rw [hred] at heq
      exact absurd heq (by simp)
    | some p =>
      have hred : ms.mmap m start end_ prot =
          some (0,
            { page_table :=
                ((MapArea.new (VirtAddr.floor start * PAGE_SIZE)
                  (VirtAddr.ceil end_ * PAGE_SIZE) MapType.Framed
                  (p ||| MapPermission.U)).map ms.page_table m).2.1,
              areas := ms.areas ++
                [((MapArea.new (VirtAddr.floor start * PAGE_SIZE)
                  (VirtAddr.ceil end_ * PAGE_SIZE) MapType.Framed
                  (p ||| MapPermission.U)).map ms.page_table m).1] },
            ((MapArea.new (VirtAddr.floor start * PAGE_SIZE)
              (VirtAddr.ceil end_ * PAGE_SIZE) MapType.Framed
              (p ||| MapPermission.U)).map ms.page_table m).2.2) := by
        simp only [MemorySet.mmap, hg, Bool.false_eq_true, if_false, hfb,
          MemorySet.insert_framed_area, MemorySet.pushArea]
      rw [hred] at heq
      injection heq with h
      rw [← h]
      obtain ⟨s1, s2, s3, s4, s5, s6, s7⟩ :=
        map_framed_spec
          (MapArea.new (VirtAddr.floor start * PAGE_SIZE)
            (VirtAddr.ceil end_ * PAGE_SIZE) MapType.Framed
            (p ||| MapPermission.U)) ms.page_table m rfl
      intro x hx
      rcases List.mem_append.mp hx with hxo | hxn
      · -- an old region: the new translations lie outside its range
        have hxinv := hinv x hxo
        have hgx := List.any_eq_false.mp (by rw [hg]) x hxo
        simp only [Bool.and_eq_true, decide_eq_true_eq, not_and] at hgx
        by_cases hxe : x.vpn_range.get_start < x.vpn_range.get_end
        · refine regionFramesInv_congr ms.page_table _ x ?_ hxinv
          intro w hw1 hw2
          rw [s5 w]
          rw [if_neg ?_]
          simp only [MapArea.new, floor_mul, ceil_mul]
          have hd : ¬(VirtAddr.floor start < x.vpn_range.get_end ∧
              VirtAddr.ceil end_ > x.vpn_range.get_start) :=
            fun hbc => hgx ⟨hxe, hbc.1⟩ hbc.2
          simp only [VPNRange.get_start, VPNRange.get_end] at *
          omega
        · have hdf := empty_area_df_nil ms.page_table x hxinv (by omega)
          exact regionFramesInv_of_empty _ x (by omega) hdf
      · rw [List.mem_singleton.mp hxn]
        exact map_preserves_inv _ ms.page_table m rfl

theorem munmap_preserves_inv (ms : MemorySet) (start end_ : Nat)
    (hdisj : ms.areas.Pairwise rangesDisjoint) (hinv : ms.framesInv) :
    (ms.munmap start end_).2.framesInv := by
  by_cases hc : (ms.areas.filterMap (fun area =>
      if VirtAddr.floor start ≤ area.vpn_range.get_start ∧
          area.vpn_range.get_end ≤ VirtAddr.ceil end_ then
        some (area.vpn_range.get_end - area.vpn_range.get_start)
      else none)).sum < VirtAddr.ceil end_ - VirtAddr.floor start
  · have hred : ms.munmap start end_ = (-1, ms) := by
      simp only [MemorySet.munmap]
      rw [if_pos hc]
    rw [hred]
    exact hinv
  · have hred : ms.munmap start end_ =
        (0, { page_table :=
                (munmap_areas (VirtAddr.floor start) (VirtAddr.ceil end_)
                  ms.areas ms.page_table).2,
              areas :=
                (munmap_areas (VirtAddr.floor start) (VirtAddr.ceil end_)
                  ms.areas ms.page_table).1.filter
                  (fun area =>
                    decide (area.vpn_range.get_start < area.vpn_range.get_end)) }) := by
      simp only [MemorySet.munmap]
      rw [if_neg hc]
    rw [hred]
    obtain ⟨mfil, mtrans⟩ :=
      munmap_areas_spec (VirtAddr.floor start) (VirtAddr.ceil end_)
        ms.areas ms.page_table
    intro x hx
    simp only [] at hx
    rw [mfil] at hx
    rw [List.mem_filter] at hx
    obtain ⟨hxo, hxb⟩ := hx
    rw [Bool.and_eq_true] at hxb
    have hxe := of_decide_eq_true hxb.1
    have hxnc : ¬containedIn (VirtAddr.floor start) (VirtAddr.ceil end_) x := by
      simpa using hxb.2
    refine regionFramesInv_congr ms.page_table _ x ?_ (hinv x hxo)
    intro w hw1 hw2
    rw [mtrans w, if_neg ?_]
    rintro ⟨c, hcm, hcc, hcr⟩
    have hac : x ≠ c := fun hxc => hxnc (hxc ▸ hcc)
    have hrd : rangesDisjoint x c :=
      List.Pairwise.forall (fun u v h => Or.symm h) hdisj hxo hcm hac
    rcases hrd with h | h <;>
      simp only [rangesDisjoint, VPNRange.get_start, VPNRange.get_end] at * <;> omega

theorem remove_area_preserves_inv (ms : MemorySet) (sv : Nat)
    (hdisj : ms.areas.Pairwise rangesDisjoint) (hinv : ms.framesInv) :
    (ms.remove_area_with_start_vpn sv).framesInv := by
  rcases remove_area_go_char sv ms.areas ms.page_table with
    ⟨_, heq⟩ | ⟨pre, a0, post, hL, _, heq⟩
  · intro x hx
    simp only [MemorySet.remove_area_with_start_vpn, heq] at hx ⊢
    exact hinv x hx
  · intro x hx
    simp only [MemorySet.remove_area_with_start_vpn, heq] at hx ⊢
    obtain ⟨u1, u2, u3, u4, u5, u6⟩ := unmap_spec a0 ms.page_table
    have hxm : x ∈ ms.areas := by
      rw [hL]
      rcases List.mem_append.mp hx with h | h
      · exact List.mem_append.mpr (Or.inl h)
      · exact List.mem_append.mpr (Or.inr (List.mem_cons_of_mem a0 h))
    have hrd : rangesDisjoint x a0 := by
      rw [hL] at hdisj
      rw [List.pairwise_append] at hdisj
      rcases List.mem_append.mp hx with h | h
      · exact hdisj.2.2 x h a0 (List.mem_cons_self a0 post)
      · have := (List.pairwise_cons.mp hdisj.2.1).1 x h
        exact Or.symm this
    refine regionFramesInv_congr ms.page_table _ x ?_ (hinv x hxm)
    intro w hw1 hw2
    rw [u4 w, if_neg ?_]
    rcases hrd with h | h <;>
      simp only [rangesDisjoint, VPNRange.get_start, VPNRange.get_end] at * <;> omega

/-! ## Claim C9 -/

/-- C9, counterexample: the invariant as stated fails for `Identical` regions.
Starting from a state where it holds (empty page table, empty `data_frames`),
`map_one` on an `Identical` region maps the page but records no frame, so the
keys of `data_frames` (none) are no longer the mapped subset of `vpn_range`
(the whole range): the invariant is not preserved by `map_one`. -/
theorem frames_inv_literal_fails_on_identical :
    framesKeysExactlyMapped [] ⟨⟨0, 1⟩, [], MapType.Identical, 2⟩ ∧
    ¬ framesKeysExactlyMapped
      (((⟨⟨0, 1⟩, [], MapType.Identical, 2⟩ : MapArea).map_one []
        ⟨0, fun _ _ => 0⟩ 0).2.1)
      (((⟨⟨0, 1⟩, [], MapType.Identical, 2⟩ : MapArea).map_one []
        ⟨0, fun _ _ => 0⟩ 0).1) :=
  ⟨by decide, by decide⟩

/-- C9, amended: restricted to what the code actually maintains.  For every
`Framed` region the keys of `data_frames` are exactly the subset of
`vpn_range` currently mapped in the owning page table, while an `Identical`
region's `data_frames` stays empty (`regionFramesInv`); this invariant is
established or preserved, for the operated region, by `map_one` (on a page of
the region's range), `unmap_one`, `map` (from empty `data_frames`) and
`unmap`, and, for every region of the space, by `mmap`, by `munmap` and by
`remove_area_with_start_vpn` (under pairwise-disjoint regions) and by
`recycle_data_pages`. -/
theorem region_frames_inv_preserved :
    (∀ (a : MapArea) (pt : PageTable) (m : Machine) (vpn : Nat),
      regionFramesInv pt a →
      a.vpn_range.get_start ≤ vpn ∧ vpn < a.vpn_range.get_end →
      regionFramesInv (a.map_one pt m vpn).2.1 (a.map_one pt m vpn).1) ∧
    (∀ (a : MapArea) (pt : PageTable) (vpn : Nat),
      regionFramesInv pt a →
      regionFramesInv (a.unmap_one pt vpn).2 (a.unmap_one pt vpn).1) ∧
    (∀ (a : MapArea) (pt : PageTable) (m : Machine),
      a.data_frames = [] →
      regionFramesInv (a.map pt m).2.1 (a.map pt m).1) ∧
    (∀ (a : MapArea) (pt : PageTable),
      regionFramesInv pt a →
      regionFramesInv (a.unmap pt).2 (a.unmap pt).1) ∧
    (∀ (ms : MemorySet) (m : Machine) (start end_ prot : Nat)
        (res : Int × MemorySet × Machine),
      ms.framesInv → ms.mmap m start end_ prot = some res →
      res.2.1.framesInv) ∧
    (∀ (ms : MemorySet) (start end_ : Nat),
      ms.areas.Pairwise rangesDisjoint → ms.framesInv →
      (ms.munmap start end_).2.framesInv) ∧
    (∀ (ms : MemorySet) (sv : Nat),
      ms.areas.Pairwise rangesDisjoint → ms.framesInv →
      (ms.remove_area_with_start_vpn sv).framesInv) ∧
    (∀ ms : MemorySet, ms.recycle_data_pages.framesInv) :=
  ⟨map_one_preserves_inv, unmap_one_preserves_inv, map_preserves_inv,
    unmap_preserves_inv, mmap_preserves_inv, munmap_preserves_inv,
    remove_area_preserves_inv, fun _ x hx => absurd hx (by simp [MemorySet.recycle_data_pages])⟩

/-- Witness for the amended C9: a rejected `mmap` call on a concrete one-region
space preserves the region invariant. -/
theorem region_frames_inv_preserved_witness :
    (MemorySet.mk [(0, ⟨5, 23⟩)]
      [⟨⟨0, 1⟩, [(0, 5)], MapType.Framed, 22⟩]).framesInv :=
  region_frames_inv_preserved.2.2.2.2.1
    (MemorySet.mk [(0, ⟨5, 23⟩)] [⟨⟨0, 1⟩, [(0, 5)], MapType.Framed, 22⟩])
    ⟨6, fun _ _ => 0⟩ 0 4096 3
    (-1, MemorySet.mk [(0, ⟨5, 23⟩)] [⟨⟨0, 1⟩, [(0, 5)], MapType.Framed, 22⟩],
      ⟨6, fun _ _ => 0⟩)
    (by decide) rfl

/-! ## Characterization of `copy_data` -/

theorem take_drop_getD (data : List Nat) (a k o : Nat) (ho : o < k) :
    ((data.drop a).take k).getD o 0 = data.getD (a + o) 0 := by
  simp only [List.getD_eq_getElem?_getD, List.getElem?_take, List.getElem?_drop]
  rw [if_pos ho]

theorem take_drop_length (data : List Nat) (a k : Nat) :
    ((data.drop a).take k).length = min k (data.length - a) := by
  rw [List.length_take, List.length_drop]

theorem copy_data_go_spec (pt : PageTable) (data : List Nat) (base s n : Nat)
    (htr : ∀ vpn, s ≤ vpn → vpn < s + n →
      ∃ e, pt.translate vpn = some e ∧ e.ppn = base + (vpn - s))
    (hn : chunksOf data.length ≤ n) :
    ∀ (fuel j : Nat) (m : Machine),
      j < chunksOf data.length →
      chunksOf data.length ≤ j + fuel →
      ∃ m', copy_data_go pt data fuel (j * PAGE_SIZE) (s + j) m = some m' ∧
        m'.next_frame = m.next_frame ∧
        ∀ p o, m'.mem p o =
          if base + j ≤ p ∧ p < base + chunksOf data.length ∧
              (p - base) * PAGE_SIZE + o < data.length ∧ o < PAGE_SIZE then
            data.getD ((p - base) * PAGE_SIZE + o) 0
          else m.mem p o := by
  intro fuel
  induction fuel with
  | zero =>
    intro j m hj hfuel
    exact absurd hfuel (by omega)
  | succ fuel ih =>
    intro j m hj hfuel
    obtain ⟨e, he, hppn⟩ := htr (s + j) (by omega) (by omega)
    have hppn' : e.ppn = base + j := by omega
    have hj0 : data.length = 0 ∨ j * PAGE_SIZE < data.length := by
      simp only [chunksOf, PAGE_SIZE] at hj ⊢
      omega
    have hsrc : ((data.drop (j * PAGE_SIZE)).take PAGE_SIZE).length =
        min PAGE_SIZE (data.length - j * PAGE_SIZE) :=
      take_drop_length data (j * PAGE_SIZE) PAGE_SIZE
    by_cases hlast : j * PAGE_SIZE + PAGE_SIZE ≥ data.length
    · have hred : copy_data_go pt data (fuel + 1) (j * PAGE_SIZE) (s + j) m =
          some (copy_page m e.ppn ((data.drop (j * PAGE_SIZE)).take PAGE_SIZE)) := by
        simp only [copy_data_go, he]
        rw [if_pos hlast]
      refine ⟨_, hred, rfl, ?_⟩
      have hch : chunksOf data.length = j + 1 := by
        simp only [chunksOf, PAGE_SIZE] at *
        omega
      intro p o
      simp only [copy_page, hppn']
      by_cases hc : p = base + j ∧
          o < ((data.drop (j * PAGE_SIZE)).take PAGE_SIZE).length
      · rw [if_pos hc, if_pos ?_]
        · rw [take_drop_getD data (j * PAGE_SIZE) PAGE_SIZE o ?_]
          · have hpb : p - base = j := by omega
            rw [hpb]
          · rw [hsrc] at hc
            omega
        · rw [hsrc] at hc
          have hpb : p - base = j := by omega
          rw [hch, hpb]
          omega
      · rw [if_neg hc, if_neg ?_]
        rw [hsrc] at hc
        rw [hch]
        intro hcc
        have hpb : p - base = j := by omega
        rw [hpb] at hcc
        apply hc
        omega
    · have hj1 : j + 1 < chunksOf data.length := by
        simp only [chunksOf, PAGE_SIZE] at *
        omega
      obtain ⟨m', hm', hnext, hmem⟩ :=
        ih (j + 1) (copy_page m e.ppn ((data.drop (j * PAGE_SIZE)).take PAGE_SIZE))
          hj1 (by omega)
      have hred : copy_data_go pt data (fuel + 1) (j * PAGE_SIZE) (s + j) m =
          copy_data_go pt data fuel ((j + 1) * PAGE_SIZE) (s + (j + 1))
            (copy_page m e.ppn ((data.drop (j * PAGE_SIZE)).take PAGE_SIZE)) := by
        simp only [copy_data_go, he]
        rw [if_neg (by omega)]
        have h1 : j * PAGE_SIZE + PAGE_SIZE = (j + 1) * PAGE_SIZE := by ring
        have h2 : s + j + 1 = s + (j + 1) := by ring
        rw [h1, h2]
      refine ⟨m', by rw [hred]; exact hm', hnext, ?_⟩
      intro p o
      rw [hmem p o]
      simp only [copy_page, hppn']
      by_cases hc1 : base + (j + 1) ≤ p ∧ p < base + chunksOf data.length ∧
          (p - base) * PAGE_SIZE + o < data.length ∧ o < PAGE_SIZE
      · rw [if_pos hc1, if_pos (by omega)]
      · rw [if_neg hc1]
        by_cases hc2 : p = base + j ∧
            o < ((data.drop (j * PAGE_SIZE)).take PAGE_SIZE).length
        · rw [if_pos hc2, if_pos ?_]
          · rw [take_drop_getD data (j * PAGE_SIZE) PAGE_SIZE o ?_]
            · have hpb : p - base = j := by omega
              rw [hpb]
            · rw [hsrc] at hc2
              omega
          · rw [hsrc] at hc2
            have hpb : p - base = j := by omega
            rw [hpb]
            refine ⟨by omega, by omega, by omega, by omega⟩
        · rw [if_neg hc2, if_neg ?_]
          rw [hsrc] at hc2
          intro hcc
          by_cases hp : p = base + j
          · apply hc2
            have hpb : p - base = j := by omega
            rw [hpb] at hcc
            refine ⟨hp, by omega⟩
          · apply hc1
            refine ⟨by omega, hcc.2.1, hcc.2.2.1, hcc.2.2.2⟩

theorem copy_data_spec (a : MapArea) (pt : PageTable) (m : Machine)
    (data : List Nat) (base : Nat)
    (hty : a.map_type = MapType.Framed)
    (htr : ∀ vpn, a.vpn_range.l ≤ vpn → vpn < a.vpn_range.l +
        (a.vpn_range.r - a.vpn_range.l) →
      ∃ e, pt.translate vpn = some e ∧ e.ppn = base + (vpn - a.vpn_range.l))
    (hn : chunksOf data.length ≤ a.vpn_range.r - a.vpn_range.l) :
    ∃ m', a.copy_data pt m data = some m' ∧
      m'.next_frame = m.next_frame ∧
      ∀ p o, m'.mem p o =
        if base ≤ p ∧ p < base + chunksOf data.length ∧
            (p - base) * PAGE_SIZE + o < data.length ∧ o < PAGE_SIZE then
          data.getD ((p - base) * PAGE_SIZE + o) 0
        else m.mem p o := by
  obtain ⟨m', hm', hnext, hmem⟩ :=
    copy_data_go_spec pt data base a.vpn_range.l (a.vpn_range.r - a.vpn_range.l)
      htr hn (data.length / PAGE_SIZE + 1) 0 m
      (by simp only [chunksOf]; omega)
      (by simp only [chunksOf, PAGE_SIZE]; omega)
  refine ⟨m', ?_, hnext, ?_⟩
  · rw [MapArea.copy_data, if_pos hty]
    show copy_data_go pt data (data.length / PAGE_SIZE + 1) 0 a.vpn_range.l m = _
    have h0 : (0 : Nat) * PAGE_SIZE = 0 := by simp
    have h1 : a.vpn_range.l + 0 = a.vpn_range.l := by omega
    rw [h0, h1] at hm'
    exact hm'
  · intro p o
    rw [hmem p o]
    by_cases hc : base + 0 ≤ p ∧ p < base + chunksOf data.length ∧
        (p - base) * PAGE_SIZE + o < data.length ∧ o < PAGE_SIZE
    · rw [if_pos hc, if_pos (by omega)]
    · rw [if_neg hc, if_neg (by omega)]

theorem pushData_spec (ms : MemorySet) (m : Machine) (a : MapArea)
    (data : List Nat)
    (hty : a.map_type = MapType.Framed) (hdf : a.data_frames = [])
    (hlr : a.vpn_range.l < a.vpn_range.r)
    (hlen : data.length ≤ (a.vpn_range.r - a.vpn_range.l) * PAGE_SIZE) :
    ∃ m', ms.pushData m a data =
      some ({ page_table := (a.map ms.page_table m).2.1,
              areas := ms.areas ++ [(a.map ms.page_table m).1] }, m') ∧
      ((a.map ms.page_table m).1.vpn_range = a.vpn_range ∧
        (a.map ms.page_table m).1.map_type = MapType.Framed ∧
        (a.map ms.page_table m).1.map_perm = a.map_perm ∧
        (∀ vpn, (a.map ms.page_table m).1.data_frames.lookup vpn =
          if a.vpn_range.l ≤ vpn ∧ vpn < a.vpn_range.r then
            some (m.next_frame + (vpn - a.vpn_range.l))
          else none)) ∧
      (∀ vpn, (a.map ms.page_table m).2.1.translate vpn =
        if a.vpn_range.l ≤ vpn ∧ vpn < a.vpn_range.r then
          some ⟨m.next_frame + (vpn - a.vpn_range.l), a.map_perm ||| 1⟩
        else ms.page_table.translate vpn) ∧
      m'.next_frame = m.next_frame + (a.vpn_range.r - a.vpn_range.l) ∧
      (∀ p o, p < m.next_frame → m'.mem p o = m.mem p o) ∧
      (∀ vpn o, a.vpn_range.l ≤ vpn → vpn < a.vpn_range.r → o < PAGE_SIZE →
        m'.mem (m.next_frame + (vpn - a.vpn_range.l)) o =
          if (vpn - a.vpn_range.l) * PAGE_SIZE + o < data.length then
            data.getD ((vpn - a.vpn_range.l) * PAGE_SIZE + o) 0
          else 0) := by
  obtain ⟨s1, s2, s3, s4, s5, s6, s7⟩ := map_framed_spec a ms.page_table m hty
  have hch : chunksOf data.length ≤ a.vpn_range.r - a.vpn_range.l := by
    simp only [chunksOf, PAGE_SIZE] at *
    omega
  have hchlen : data.length ≤ chunksOf data.length * PAGE_SIZE := by
    simp only [chunksOf, PAGE_SIZE]
    omega
  obtain ⟨m', hm', hnext, hmem⟩ :=
    copy_data_spec (a.map ms.page_table m).1 (a.map ms.page_table m).2.1
      (a.map ms.page_table m).2.2 data m.next_frame s2
      (by
        rw [s1]
        intro vpn h1 h2
        rw [s5 vpn, if_pos ⟨h1, h2⟩]
        exact ⟨_, rfl, rfl⟩)
      (by rw [s1]; exact hch)
  refine ⟨m', ?_, ⟨s1, s2, s3, ?_⟩, ?_, ?_, ?_, ?_⟩
  · simp only [MemorySet.pushData, hm']
  · intro vpn
    rw [s6 vpn, hdf]
    by_cases hc : a.vpn_range.l ≤ vpn ∧ vpn < a.vpn_range.r
    · rw [if_pos (by omega), if_pos hc]
    · rw [if_neg (by omega), if_neg hc]
      simp [DataFrames.lookup]
  · intro vpn
    rw [s5 vpn]
    by_cases hc : a.vpn_range.l ≤ vpn ∧ vpn < a.vpn_range.r
    · rw [if_pos (by omega), if_pos hc]
    · rw [if_neg (by omega), if_neg hc]
  · rw [hnext, s4]
  · intro p o hp
    rw [hmem p o, if_neg (by omega), s7 p o, if_neg (by omega)]
  · intro vpn o h1 h2 ho
    rw [hmem _ o]
    have hk : m.next_frame + (vpn - a.vpn_range.l) - m.next_frame =
        vpn - a.vpn_range.l := by omega
    rw [hk]
    by_cases hc : (vpn - a.vpn_range.l) * PAGE_SIZE + o < data.length
    · rw [if_pos ?_, if_pos hc]
      refine ⟨by omega, ?_, hc, ho⟩
      simp only [PAGE_SIZE] at *
      omega
    · rw [if_neg (fun hcc => hc hcc.2.2.1), if_neg hc,
        s7 _ o, if_pos (by omega)]

/-! ## Characterization of the segment-loading loop of `from_elf` -/

theorem segRange_valid (ph : ProgramHeader)
    (hm : 0 < ph.mem_size) (hf : ph.file_data.length ≤ ph.mem_size) :
    segStartVpn ph < segEndVpn ph ∧
    ph.file_data.length ≤ (segEndVpn ph - segStartVpn ph) * PAGE_SIZE := by
  constructor
  · exact floor_lt_ceil ph.vaddr (ph.vaddr + ph.mem_size) (by omega)
  · simp only [segStartVpn, segEndVpn, VirtAddr.floor, VirtAddr.ceil, PAGE_SIZE]
    omega

theorem load_segments_spec :
    ∀ (phs : List ProgramHeader) (ms : MemorySet) (m : Machine) (mx : Nat),
      (∀ ph ∈ phs, ph.ptype = SegType.Load →
        0 < ph.mem_size ∧ ph.file_data.length ≤ ph.mem_size) →
      ∃ ms' m', load_segments phs ms m mx =
          some (ms', m', elfLastEndVpnFrom mx phs) ∧
        m.next_frame ≤ m'.next_frame ∧
        (∀ p o, p < m.next_frame → m'.mem p o = m.mem p o) ∧
        (∃ newAreas, ms'.areas = ms.areas ++ newAreas) ∧
        (∀ vpn, (∀ ph ∈ phs, ph.ptype = SegType.Load →
            ¬(segStartVpn ph ≤ vpn ∧ vpn < segEndVpn ph)) →
          ms'.translate vpn = ms.translate vpn) ∧
        (∀ ph ∈ phs, ph.ptype = SegType.Load →
          ∃ a' ∈ ms'.areas,
            a'.vpn_range = ⟨segStartVpn ph, segEndVpn ph⟩ ∧
            a'.map_type = MapType.Framed ∧
            a'.map_perm = segPerm ph ∧
            ∀ vpn, segStartVpn ph ≤ vpn → vpn < segEndVpn ph →
              ∃ ppn, a'.data_frames.lookup vpn = some ppn ∧
                ppn < m'.next_frame ∧
                ∀ o, o < PAGE_SIZE →
                  m'.mem ppn o =
                    if (vpn - segStartVpn ph) * PAGE_SIZE + o <
                        ph.file_data.length then
                      ph.file_data.getD
                        ((vpn - segStartVpn ph) * PAGE_SIZE + o) 0
                    else 0) := by
  intro phs
  induction phs with
  | nil =>
    intro ms m mx hvalid
    refine ⟨ms, m, rfl, le_refl _, fun _ _ _ => rfl, ⟨[], (List.append_nil _).symm⟩,
      fun _ _ => rfl, fun ph hph => absurd hph (by simp)⟩
  | cons ph rest ih =>
    intro ms m mx hvalid
    cases hty : ph.ptype
    case Other =>
      have hred : load_segments (ph :: rest) ms m mx = load_segments rest ms m mx := by
        simp only [load_segments, hty]
      have hmx : elfLastEndVpnFrom mx (ph :: rest) = elfLastEndVpnFrom mx rest := by
        simp only [elfLastEndVpnFrom, hty]
        rw [if_neg (by intro h; exact SegType.noConfusion h)]
      obtain ⟨ms', m', heq, h2, h3, h4, h5, h6⟩ :=
        ih ms m mx (fun q hq => hvalid q (List.mem_cons_of_mem ph hq))
      refine ⟨ms', m', by rw [hred, hmx]; exact heq, h2, h3, h4, ?_, ?_⟩
      · intro vpn hv
        exact h5 vpn (fun q hq => hv q (List.mem_cons_of_mem ph hq))
      · intro q hq hqt
        rcases List.mem_cons.mp hq with rfl | hq'
        · rw [hty] at hqt
          exact absurd hqt (by intro h; exact SegType.noConfusion h)
        · exact h6 q hq' hqt
    case Load =>
      obtain ⟨hm0, hf0⟩ := hvalid ph (List.mem_cons_self ph rest) hty
      obtain ⟨hlr, hlen⟩ := segRange_valid ph hm0 hf0
      have hA : (MapArea.new ph.vaddr (ph.vaddr + ph.mem_size) MapType.Framed
          (segPerm ph)).vpn_range = ⟨segStartVpn ph, segEndVpn ph⟩ := rfl
      obtain ⟨m1, hpush, ⟨p1, p2, p3, p4⟩, ptrans, pnext, pmemlow, pcontent⟩ :=
        pushData_spec ms m
          (MapArea.new ph.vaddr (ph.vaddr + ph.mem_size) MapType.Framed (segPerm ph))
          ph.file_data rfl rfl (by rw [hA] at *; exact hlr) (by rw [hA] at *; exact hlen)
      obtain ⟨ms', m', heq, h2, h3, ⟨newAreas2, h4⟩, h5, h6⟩ :=
        ih { page_table :=
              ((MapArea.new ph.vaddr (ph.vaddr + ph.mem_size) MapType.Framed
                (segPerm ph)).map ms.page_table m).2.1,
             areas := ms.areas ++
              [((MapArea.new ph.vaddr (ph.vaddr + ph.mem_size) MapType.Framed
                (segPerm ph)).map ms.page_table m).1] }
          m1 (segEndVpn ph)
          (fun q hq => hvalid q (List.mem_cons_of_mem ph hq))
      have hred : load_segments (ph :: rest) ms m mx =
          some (ms', m', elfLastEndVpnFrom mx (ph :: rest)) := by
        simp only [load_segments, hty, hpush]
        have hmx : elfLastEndVpnFrom mx (ph :: rest) =
            elfLastEndVpnFrom (segEndVpn ph) rest := by
          simp [elfLastEndVpnFrom, hty]
        rw [hmx]
        exact heq
      refine ⟨ms', m', hred, ?_, ?_, ?_, ?_, ?_⟩
      · rw [hA] at pnext
        omega
      · intro p o hp
        rw [h3 p o (by rw [hA] at pnext; omega), pmemlow p o hp]
      · refine ⟨((MapArea.new ph.vaddr (ph.vaddr + ph.mem_size) MapType.Framed
          (segPerm ph)).map ms.page_table m).1 :: newAreas2, ?_⟩
        rw [h4, List.append_assoc]
        rfl
      · intro vpn hv
        rw [h5 vpn (fun q hq => hv q (List.mem_cons_of_mem ph hq))]
        show ((MapArea.new ph.vaddr (ph.vaddr + ph.mem_size) MapType.Framed
          (segPerm ph)).map ms.page_table m).2.1.translate vpn = _
        rw [ptrans vpn, hA]
        rw [if_neg ?_]
        · rfl
        · have := hv ph (List.mem_cons_self ph rest) hty
          simpa using this
      · intro q hq hqt
        rcases List.mem_cons.mp hq with rfl | hq'
        · refine ⟨((MapArea.new q.vaddr (q.vaddr + q.mem_size) MapType.Framed
            (segPerm q)).map ms.page_table m).1, ?_, ?_, p2, ?_, ?_⟩
          · rw [h4]
            exact List.mem_append.mpr (Or.inl (List.mem_append.mpr
              (Or.inr (List.mem_singleton.mpr rfl))))
          · rw [p1, hA]
          · rw [p3]
            rfl
          · intro vpn hv1 hv2
            refine ⟨m.next_frame + (vpn - segStartVpn q), ?_, ?_, ?_⟩
            · rw [p4 vpn, hA]
              rw [if_pos ⟨hv1, hv2⟩]
            · rw [hA] at pnext
              simp only [VPNRange.get_start, VPNRange.get_end] at pnext
              omega
            · intro o ho
              rw [h3 _ o ?_]
              · have := pcontent vpn o (by rw [hA]; exact hv1)
                  (by rw [hA]; exact hv2) ho
                rw [hA] at this
                exact this
              · rw [hA] at pnext
                simp only [VPNRange.get_start, VPNRange.get_end] at *
                omega
        · obtain ⟨a', ha'm, q1, q2, q3, q4⟩ := h6 q hq' hqt
          refine ⟨a', ?_, q1, q2, q3, q4⟩
          exact ha'm

/-! ## Claim C5: `from_elf` layout -/

/-- C5: for a valid executable image (magic correct, loadable segments with
non-zero memory size, file size at most memory size, and — as the ELF format
requires of its sorted, non-overlapping `LOAD` headers — the last loadable
segment's end VPN being the maximum, with the image low enough that stack and
trap context fit), `from_elf` tracks the maximum end VPN across all loadable
segments, places the user stack so that its bottom is exactly one unmapped
guard page above that maximum end (the guard page translates to absent), maps
the trap-context region at its fixed address immediately below the
trampoline, and returns the space together with the initial stack pointer
equal to the top of the stack region and the entry address from the image
header. -/
theorem from_elf_layout (m : Machine) (strampoline : Nat) (elf : ElfFile)
    (hmagic : elf.magic_ok = true)
    (hvalid : ∀ ph ∈ elf.phs, ph.ptype = SegType.Load →
      0 < ph.mem_size ∧ ph.file_data.length ≤ ph.mem_size)
    (hmax : ∀ ph ∈ elf.phs, ph.ptype = SegType.Load →
      segEndVpn ph ≤ elfLastEndVpn elf.phs)
    (hroom : elfLastEndVpn elf.phs + 3 ≤ TRAP_CONTEXT / PAGE_SIZE) :
    ∃ msR sp m', MemorySet.from_elf m strampoline elf =
        some (msR, sp, elf.entry_point, m') ∧
      sp = (elfLastEndVpn elf.phs + 1) * PAGE_SIZE + USER_STACK_SIZE ∧
      (∃ rest stackA trapA, msR.areas = rest ++ [stackA, trapA] ∧
        stackA.vpn_range =
          ⟨elfLastEndVpn elf.phs + 1, elfLastEndVpn elf.phs + 3⟩ ∧
        stackA.map_type = MapType.Framed ∧
        stackA.map_perm = (MapPermission.R ||| MapPermission.W ||| MapPermission.U) ∧
        sp = stackA.vpn_range.get_end * PAGE_SIZE ∧
        trapA.vpn_range = ⟨TRAP_CONTEXT / PAGE_SIZE, TRAMPOLINE / PAGE_SIZE⟩ ∧
        trapA.map_type = MapType.Framed ∧
        trapA.map_perm = (MapPermission.R ||| MapPermission.W)) ∧
      msR.translate (elfLastEndVpn elf.phs) = none := by
  obtain ⟨ms1, m1, heq, _, _, ⟨newAreas, hareas1⟩, htrans1, _⟩ :=
    load_segments_spec elf.phs (MemorySet.new_bare.map_trampoline strampoline)
      m 0 hvalid
  have hL : elfLastEndVpnFrom 0 elf.phs = elfLastEndVpn elf.phs := rfl
  rw [hL] at heq
  have hsb : VirtAddr.floor (elfLastEndVpn elf.phs * PAGE_SIZE + PAGE_SIZE) =
      elfLastEndVpn elf.phs + 1 := by
    have h1 : elfLastEndVpn elf.phs * PAGE_SIZE + PAGE_SIZE =
        (elfLastEndVpn elf.phs + 1) * PAGE_SIZE := by ring
    rw [h1, floor_mul]
  have hst : VirtAddr.ceil (elfLastEndVpn elf.phs * PAGE_SIZE + PAGE_SIZE +
      USER_STACK_SIZE) = elfLastEndVpn elf.phs + 3 := by
    have h1 : elfLastEndVpn elf.phs * PAGE_SIZE + PAGE_SIZE + USER_STACK_SIZE =
        (elfLastEndVpn elf.phs + 3) * PAGE_SIZE := by
      simp only [PAGE_SIZE, USER_STACK_SIZE]
      ring
    rw [h1, ceil_mul]
  have hTCfl : VirtAddr.floor TRAP_CONTEXT = TRAP_CONTEXT / PAGE_SIZE := rfl
  have hTRc : VirtAddr.ceil TRAMPOLINE = TRAMPOLINE / PAGE_SIZE := by decide
  have hTRfl : VirtAddr.floor TRAMPOLINE = TRAMPOLINE / PAGE_SIZE := rfl
  obtain ⟨t1, t2, t3, t4, t5, t6, t7⟩ :=
    map_framed_spec (MapArea.new (elfLastEndVpn elf.phs * PAGE_SIZE + PAGE_SIZE)
        (elfLastEndVpn elf.phs * PAGE_SIZE + PAGE_SIZE + USER_STACK_SIZE)
        MapType.Framed (MapPermission.R ||| MapPermission.W ||| MapPermission.U)) ms1.page_table m1 rfl
  obtain ⟨u1, u2, u3, u4, u5, u6, u7⟩ :=
    map_framed_spec (MapArea.new TRAP_CONTEXT TRAMPOLINE MapType.Framed
        (MapPermission.R ||| MapPermission.W)) ((MapArea.new (elfLastEndVpn elf.phs * PAGE_SIZE + PAGE_SIZE)
        (elfLastEndVpn elf.phs * PAGE_SIZE + PAGE_SIZE + USER_STACK_SIZE)
        MapType.Framed (MapPermission.R ||| MapPermission.W ||| MapPermission.U)).map ms1.page_table m1).2.1 ((MapArea.new (elfLastEndVpn elf.phs * PAGE_SIZE + PAGE_SIZE)
        (elfLastEndVpn elf.phs * PAGE_SIZE + PAGE_SIZE + USER_STACK_SIZE)
        MapType.Framed (MapPermission.R ||| MapPermission.W ||| MapPermission.U)).map ms1.page_table m1).2.2 rfl
  have hred : MemorySet.from_elf m strampoline elf =
      some ({ page_table := ((MapArea.new TRAP_CONTEXT TRAMPOLINE MapType.Framed
        (MapPermission.R ||| MapPermission.W)).map ((MapArea.new (elfLastEndVpn elf.phs * PAGE_SIZE + PAGE_SIZE)
        (elfLastEndVpn elf.phs * PAGE_SIZE + PAGE_SIZE + USER_STACK_SIZE)
        MapType.Framed (MapPermission.R ||| MapPermission.W ||| MapPermission.U)).map ms1.page_table m1).2.1 ((MapArea.new (elfLastEndVpn elf.phs * PAGE_SIZE + PAGE_SIZE)
        (elfLastEndVpn elf.phs * PAGE_SIZE + PAGE_SIZE + USER_STACK_SIZE)
        MapType.Framed (MapPermission.R ||| MapPermission.W ||| MapPermission.U)).map ms1.page_table m1).2.2).2.1,
              areas := (ms1.areas ++ [((MapArea.new (elfLastEndVpn elf.phs * PAGE_SIZE + PAGE_SIZE)
        (elfLastEndVpn elf.phs * PAGE_SIZE + PAGE_SIZE + USER_STACK_SIZE)
        MapType.Framed (MapPermission.R ||| MapPermission.W ||| MapPermission.U)).map ms1.page_table m1).1]) ++ [((MapArea.new TRAP_CONTEXT TRAMPOLINE MapType.Framed
        (MapPermission.R ||| MapPermission.W)).map ((MapArea.new (elfLastEndVpn elf.phs * PAGE_SIZE + PAGE_SIZE)
        (elfLastEndVpn elf.phs * PAGE_SIZE + PAGE_SIZE + USER_STACK_SIZE)
        MapType.Framed (MapPermission.R ||| MapPermission.W ||| MapPermission.U)).map ms1.page_table m1).2.1 ((MapArea.new (elfLastEndVpn elf.phs * PAGE_SIZE + PAGE_SIZE)
        (elfLastEndVpn elf.phs * PAGE_SIZE + PAGE_SIZE + USER_STACK_SIZE)
        MapType.Framed (MapPermission.R ||| MapPermission.W ||| MapPermission.U)).map ms1.page_table m1).2.2).1] },
        elfLastEndVpn elf.phs * PAGE_SIZE + PAGE_SIZE + USER_STACK_SIZE,
        elf.entry_point, ((MapArea.new TRAP_CONTEXT TRAMPOLINE MapType.Framed
        (MapPermission.R ||| MapPermission.W)).map ((MapArea.new (elfLastEndVpn elf.phs * PAGE_SIZE + PAGE_SIZE)
        (elfLastEndVpn elf.phs * PAGE_SIZE + PAGE_SIZE + USER_STACK_SIZE)
        MapType.Framed (MapPermission.R ||| MapPermission.W ||| MapPermission.U)).map ms1.page_table m1).2.1 ((MapArea.new (elfLastEndVpn elf.phs * PAGE_SIZE + PAGE_SIZE)
        (elfLastEndVpn elf.phs * PAGE_SIZE + PAGE_SIZE + USER_STACK_SIZE)
        MapType.Framed (MapPermission.R ||| MapPermission.W ||| MapPermission.U)).map ms1.page_table m1).2.2).2.2) := by
    simp only [MemorySet.from_elf]
    rw [if_pos hmagic]
    simp only [heq, MemorySet.pushArea]
  refine ⟨_, _, _, hred, by ring, ?_, ?_⟩
  · refine ⟨ms1.areas, _, _, ?_, ?_, t2, ?_, ?_, ?_, u2, ?_⟩
    · show (ms1.areas ++ [_]) ++ [_] = ms1.areas ++ [_, _]
      rw [List.append_assoc]
      rfl
    · rw [t1]
      show (⟨VirtAddr.floor _, VirtAddr.ceil _⟩ : VPNRange) = _
      rw [hsb, hst]
    · rw [t3]
      rfl
    · rw [t1]
      show _ = (⟨VirtAddr.floor _, VirtAddr.ceil _⟩ : VPNRange).get_end * PAGE_SIZE
      rw [hst]
      show _ = (elfLastEndVpn elf.phs + 3) * PAGE_SIZE
      simp only [PAGE_SIZE, USER_STACK_SIZE]
      ring
    · rw [u1]
      show (⟨VirtAddr.floor _, VirtAddr.ceil _⟩ : VPNRange) = _
      rw [hTRc]
      rfl
    · rw [u3]
      rfl
  · simp only [MemorySet.translate]
    have hTCTR : TRAP_CONTEXT / PAGE_SIZE < TRAMPOLINE / PAGE_SIZE := by decide
    have hATl : (MapArea.new TRAP_CONTEXT TRAMPOLINE MapType.Framed
        (MapPermission.R ||| MapPermission.W)).vpn_range.l = TRAP_CONTEXT / PAGE_SIZE := hTCfl
    have hATr : (MapArea.new TRAP_CONTEXT TRAMPOLINE MapType.Framed
        (MapPermission.R ||| MapPermission.W)).vpn_range.r = TRAMPOLINE / PAGE_SIZE := hTRc
    have hASl : (MapArea.new (elfLastEndVpn elf.phs * PAGE_SIZE + PAGE_SIZE)
        (elfLastEndVpn elf.phs * PAGE_SIZE + PAGE_SIZE + USER_STACK_SIZE)
        MapType.Framed (MapPermission.R ||| MapPermission.W ||| MapPermission.U)).vpn_range.l = elfLastEndVpn elf.phs + 1 := hsb
    have hASr : (MapArea.new (elfLastEndVpn elf.phs * PAGE_SIZE + PAGE_SIZE)
        (elfLastEndVpn elf.phs * PAGE_SIZE + PAGE_SIZE + USER_STACK_SIZE)
        MapType.Framed (MapPermission.R ||| MapPermission.W ||| MapPermission.U)).vpn_range.r = elfLastEndVpn elf.phs + 3 := hst
    rw [u5, hATl, hATr, if_neg (by omega)]
    rw [t5, hASl, hASr, if_neg (by omega)]
    have h1 := htrans1 (elfLastEndVpn elf.phs) ?_
    · simp only [MemorySet.translate] at h1
      rw [h1]
      simp only [MemorySet.new_bare, MemorySet.map_trampoline]
      rw [translate_map]
      rw [if_neg ?_]
      · rfl
      · rw [hTRfl]
        omega
    · intro ph hph hpht
      have := hmax ph hph hpht
      omega

/-! ## Claim C8: segment regions and their contents -/

theorem segPerm_bits (ph : ProgramHeader) :
    (segPerm ph).testBit 1 = ph.is_read ∧
    (segPerm ph).testBit 2 = ph.is_write ∧
    (segPerm ph).testBit 3 = ph.is_exec ∧
    (segPerm ph).testBit 4 = true := by
  have h : ∀ r w x : Bool,
      ((((MapPermission.U ||| (if r = true then MapPermission.R else 0)) |||
            (if w = true then MapPermission.W else 0)) |||
          (if x = true then MapPermission.X else 0)).testBit 1 = r ∧
        (((MapPermission.U ||| (if r = true then MapPermission.R else 0)) |||
            (if w = true then MapPermission.W else 0)) |||
          (if x = true then MapPermission.X else 0)).testBit 2 = w ∧
        (((MapPermission.U ||| (if r = true then MapPermission.R else 0)) |||
            (if w = true then MapPermission.W else 0)) |||
          (if x = true then MapPermission.X else 0)).testBit 3 = x ∧
        (((MapPermission.U ||| (if r = true then MapPermission.R else 0)) |||
            (if w = true then MapPermission.W else 0)) |||
          (if x = true then MapPermission.X else 0)).testBit 4 = true) := by
    decide
  exact h ph.is_read ph.is_write ph.is_exec

/-- C8: for every loadable program segment of a valid executable image,
`from_elf` creates a `Framed` region covering the segment's page range
`[floor vaddr, ceil (vaddr + mem_size))` whose permission is derived
bit-for-bit from the segment's read/write/execute flags plus a forced User
bit, and fills the region's freshly allocated frames page-by-page from the
segment's file-backed bytes, each page copy limited to the remaining unread
length, so that bytes past `file_size` are left as frame allocation provided
them (zero). -/
theorem from_elf_segment_content (m : Machine) (strampoline : Nat)
    (elf : ElfFile)
    (hmagic : elf.magic_ok = true)
    (hvalid : ∀ ph ∈ elf.phs, ph.ptype = SegType.Load →
      0 < ph.mem_size ∧ ph.file_data.length ≤ ph.mem_size) :
    ∀ ph ∈ elf.phs, ph.ptype = SegType.Load →
      ∃ msR sp m', MemorySet.from_elf m strampoline elf =
          some (msR, sp, elf.entry_point, m') ∧
        ∃ a' ∈ msR.areas,
          a'.vpn_range = ⟨segStartVpn ph, segEndVpn ph⟩ ∧
          a'.map_type = MapType.Framed ∧
          a'.map_perm.testBit 1 = ph.is_read ∧
          a'.map_perm.testBit 2 = ph.is_write ∧
          a'.map_perm.testBit 3 = ph.is_exec ∧
          a'.map_perm.testBit 4 = true ∧
          ∀ vpn, segStartVpn ph ≤ vpn → vpn < segEndVpn ph →
            ∃ ppn, a'.data_frames.lookup vpn = some ppn ∧
              ∀ o, o < PAGE_SIZE →
                m'.mem ppn o =
                  if (vpn - segStartVpn ph) * PAGE_SIZE + o < ph.file_data.length
                  then ph.file_data.getD ((vpn - segStartVpn ph) * PAGE_SIZE + o) 0
                  else 0 := by
  intro ph hph hpht
  obtain ⟨ms1, m1, heq, _, _, _, _, hcontent⟩ :=
    load_segments_spec elf.phs (MemorySet.new_bare.map_trampoline strampoline)
      m 0 hvalid
  have hL : elfLastEndVpnFrom 0 elf.phs = elfLastEndVpn elf.phs := rfl
  rw [hL] at heq
  obtain ⟨t1, t2, t3, t4, t5, t6, t7⟩ :=
    map_framed_spec (MapArea.new (elfLastEndVpn elf.phs * PAGE_SIZE + PAGE_SIZE)
        (elfLastEndVpn elf.phs * PAGE_SIZE + PAGE_SIZE + USER_STACK_SIZE)
        MapType.Framed (MapPermission.R ||| MapPermission.W ||| MapPermission.U)) ms1.page_table m1 rfl
  obtain ⟨u1, u2, u3, u4, u5, u6, u7⟩ :=
    map_framed_spec (MapArea.new TRAP_CONTEXT TRAMPOLINE MapType.Framed
        (MapPermission.R ||| MapPermission.W)) ((MapArea.new (elfLastEndVpn elf.phs * PAGE_SIZE + PAGE_SIZE)
        (elfLastEndVpn elf.phs * PAGE_SIZE + PAGE_SIZE + USER_STACK_SIZE)
        MapType.Framed (MapPermission.R ||| MapPermission.W ||| MapPermission.U)).map ms1.page_table m1).2.1 ((MapArea.new (elfLastEndVpn elf.phs * PAGE_SIZE + PAGE_SIZE)
        (elfLastEndVpn elf.phs * PAGE_SIZE + PAGE_SIZE + USER_STACK_SIZE)
        MapType.Framed (MapPermission.R ||| MapPermission.W ||| MapPermission.U)).map ms1.page_table m1).2.2 rfl
  have hred : MemorySet.from_elf m strampoline elf =
      some ({ page_table := ((MapArea.new TRAP_CONTEXT TRAMPOLINE MapType.Framed
        (MapPermission.R ||| MapPermission.W)).map ((MapArea.new (elfLastEndVpn elf.phs * PAGE_SIZE + PAGE_SIZE)
        (elfLastEndVpn elf.phs * PAGE_SIZE + PAGE_SIZE + USER_STACK_SIZE)
        MapType.Framed (MapPermission.R ||| MapPermission.W ||| MapPermission.U)).map ms1.page_table m1).2.1 ((MapArea.new (elfLastEndVpn elf.phs * PAGE_SIZE + PAGE_SIZE)
        (elfLastEndVpn elf.phs * PAGE_SIZE + PAGE_SIZE + USER_STACK_SIZE)
        MapType.Framed (MapPermission.R ||| MapPermission.W ||| MapPermission.U)).map ms1.page_table m1).2.2).2.1,
              areas := (ms1.areas ++ [((MapArea.new (elfLastEndVpn elf.phs * PAGE_SIZE + PAGE_SIZE)
        (elfLastEndVpn elf.phs * PAGE_SIZE + PAGE_SIZE + USER_STACK_SIZE)
        MapType.Framed (MapPermission.R ||| MapPermission.W ||| MapPermission.U)).map ms1.page_table m1).1]) ++ [((MapArea.new TRAP_CONTEXT TRAMPOLINE MapType.Framed
        (MapPermission.R ||| MapPermission.W)).map ((MapArea.new (elfLastEndVpn elf.phs * PAGE_SIZE + PAGE_SIZE)
        (elfLastEndVpn elf.phs * PAGE_SIZE + PAGE_SIZE + USER_STACK_SIZE)
        MapType.Framed (MapPermission.R ||| MapPermission.W ||| MapPermission.U)).map ms1.page_table m1).2.1 ((MapArea.new (elfLastEndVpn elf.phs * PAGE_SIZE + PAGE_SIZE)
        (elfLastEndVpn elf.phs * PAGE_SIZE + PAGE_SIZE + USER_STACK_SIZE)
        MapType.Framed (MapPermission.R ||| MapPermission.W ||| MapPermission.U)).map ms1.page_table m1).2.2).1] },
        elfLastEndVpn elf.phs * PAGE_SIZE + PAGE_SIZE + USER_STACK_SIZE,
        elf.entry_point, ((MapArea.new TRAP_CONTEXT TRAMPOLINE MapType.Framed
        (MapPermission.R ||| MapPermission.W)).map ((MapArea.new (elfLastEndVpn elf.phs * PAGE_SIZE + PAGE_SIZE)
        (elfLastEndVpn elf.phs * PAGE_SIZE + PAGE_SIZE + USER_STACK_SIZE)
        MapType.Framed (MapPermission.R ||| MapPermission.W ||| MapPermission.U)).map ms1.page_table m1).2.1 ((MapArea.new (elfLastEndVpn elf.phs * PAGE_SIZE + PAGE_SIZE)
        (elfLastEndVpn elf.phs * PAGE_SIZE + PAGE_SIZE + USER_STACK_SIZE)
        MapType.Framed (MapPermission.R ||| MapPermission.W ||| MapPermission.U)).map ms1.page_table m1).2.2).2.2) := by
    simp only [MemorySet.from_elf]
    rw [if_pos hmagic]
    simp only [heq, MemorySet.pushArea]
  obtain ⟨a', ha'm, q1, q2, q3, q4⟩ := hcontent ph hph hpht
  obtain ⟨b1, b2, b3, b4⟩ := segPerm_bits ph
  refine ⟨_, _, _, hred, a', ?_, q1, q2, ?_, ?_, ?_, ?_, ?_⟩
  · exact List.mem_append.mpr (Or.inl (List.mem_append.mpr (Or.inl ha'm)))
  · rw [q3]; exact b1
  · rw [q3]; exact b2
  · rw [q3]; exact b3
  · rw [q3]; exact b4
  · intro vpn hv1 hv2
    obtain ⟨ppn, hppn, hlt, hmem⟩ := q4 vpn hv1 hv2
    refine ⟨ppn, hppn, ?_⟩
    intro o ho
    rw [u7, if_neg ?_, t7, if_neg ?_]
    · exact hmem o ho
    · omega
    · rw [t4]
      omega
  
/-- Witness for C5: loading a one-segment image (one page at `0x1000`,
R+X, 100 content bytes) places the stack at pages 3–4 above the guard page 2
and returns `sp = 0x5000` and the header entry point. -/
theorem from_elf_layout_witness :
    ((ElfFile.mk true
      [⟨SegType.Load, 0x1000, 0x1000, List.replicate 100 7, true, false, true⟩]
      0x1010).magic_ok = true ∧
     elfLastEndVpn (ElfFile.mk true
      [⟨SegType.Load, 0x1000, 0x1000, List.replicate 100 7, true, false, true⟩]
      0x1010).phs + 3 ≤ TRAP_CONTEXT / PAGE_SIZE) ∧
    (∃ msR sp m', MemorySet.from_elf (⟨0, fun _ _ => 0⟩ : Machine) 0x80200000 (ElfFile.mk true
      [⟨SegType.Load, 0x1000, 0x1000, List.replicate 100 7, true, false, true⟩]
      0x1010) =
        some (msR, sp, (ElfFile.mk true
      [⟨SegType.Load, 0x1000, 0x1000, List.replicate 100 7, true, false, true⟩]
      0x1010).entry_point, m') ∧
      sp = (elfLastEndVpn (ElfFile.mk true
      [⟨SegType.Load, 0x1000, 0x1000, List.replicate 100 7, true, false, true⟩]
      0x1010).phs + 1) * PAGE_SIZE + USER_STACK_SIZE ∧
      (∃ rest stackA trapA, msR.areas = rest ++ [stackA, trapA] ∧
        stackA.vpn_range =
          ⟨elfLastEndVpn (ElfFile.mk true
      [⟨SegType.Load, 0x1000, 0x1000, List.replicate 100 7, true, false, true⟩]
      0x1010).phs + 1, elfLastEndVpn (ElfFile.mk true
      [⟨SegType.Load, 0x1000, 0x1000, List.replicate 100 7, true, false, true⟩]
      0x1010).phs + 3⟩ ∧
        stackA.map_type = MapType.Framed ∧
        stackA.map_perm = (MapPermission.R ||| MapPermission.W ||| MapPermission.U) ∧
        sp = stackA.vpn_range.get_end * PAGE_SIZE ∧
        trapA.vpn_range = ⟨TRAP_CONTEXT / PAGE_SIZE, TRAMPOLINE / PAGE_SIZE⟩ ∧
        trapA.map_type = MapType.Framed ∧
        trapA.map_perm = (MapPermission.R ||| MapPermission.W)) ∧
      msR.translate (elfLastEndVpn (ElfFile.mk true
      [⟨SegType.Load, 0x1000, 0x1000, List.replicate 100 7, true, false, true⟩]
      0x1010).phs) = none) :=
  ⟨⟨by decide, by decide⟩,
    from_elf_layout (⟨0, fun _ _ => 0⟩ : Machine) 0x80200000 (ElfFile.mk true
      [⟨SegType.Load, 0x1000, 0x1000, List.replicate 100 7, true, false, true⟩]
      0x1010)
      (by decide) (by decide) (by decide) (by decide)⟩

/-- Witness for C8: the single R+X segment of the concrete image yields one
Framed region over page 1 with bits R, X, U and frames filled with the 100
content bytes then zeros. -/
theorem from_elf_segment_content_witness :
    ((⟨SegType.Load, 0x1000, 0x1000, List.replicate 100 7, true, false, true⟩ :
        ProgramHeader) ∈ (ElfFile.mk true
      [⟨SegType.Load, 0x1000, 0x1000, List.replicate 100 7, true, false, true⟩]
      0x1010).phs ∧
      (⟨SegType.Load, 0x1000, 0x1000, List.replicate 100 7, true, false, true⟩ :
        ProgramHeader).ptype = SegType.Load) ∧
    (∃ msR sp m', MemorySet.from_elf (⟨0, fun _ _ => 0⟩ : Machine) 0x80200000 (ElfFile.mk true
      [⟨SegType.Load, 0x1000, 0x1000, List.replicate 100 7, true, false, true⟩]
      0x1010) =
        some (msR, sp, (ElfFile.mk true
      [⟨SegType.Load, 0x1000, 0x1000, List.replicate 100 7, true, false, true⟩]
      0x1010).entry_point, m') ∧
      ∃ a' ∈ msR.areas,
        a'.vpn_range = ⟨segStartVpn ⟨SegType.Load, 0x1000, 0x1000,
            List.replicate 100 7, true, false, true⟩,
          segEndVpn ⟨SegType.Load, 0x1000, 0x1000,
            List.replicate 100 7, true, false, true⟩⟩ ∧
        a'.map_type = MapType.Framed ∧
        a'.map_perm.testBit 1 = true ∧
        a'.map_perm.testBit 2 = false ∧
        a'.map_perm.testBit 3 = true ∧
        a'.map_perm.testBit 4 = true ∧
        ∀ vpn, segStartVpn ⟨SegType.Load, 0x1000, 0x1000,
              List.replicate 100 7, true, false, true⟩ ≤ vpn →
          vpn < segEndVpn ⟨SegType.Load, 0x1000, 0x1000,
              List.replicate 100 7, true, false, true⟩ →
          ∃ ppn, a'.data_frames.lookup vpn = some ppn ∧
            ∀ o, o < PAGE_SIZE →
              m'.mem ppn o =
                if (vpn - segStartVpn ⟨SegType.Load, 0x1000, 0x1000,
                      List.replicate 100 7, true, false, true⟩) * PAGE_SIZE + o <
                    (List.replicate 100 7).length
                then (List.replicate 100 7).getD
                  ((vpn - segStartVpn ⟨SegType.Load, 0x1000, 0x1000,
                      List.replicate 100 7, true, false, true⟩) * PAGE_SIZE + o) 0
                else 0) :=
  ⟨⟨by decide, by decide⟩,
    from_elf_segment_content (⟨0, fun _ _ => 0⟩ : Machine) 0x80200000 (ElfFile.mk true
      [⟨SegType.Load, 0x1000, 0x1000, List.replicate 100 7, true, false, true⟩]
      0x1010)
      (by decide) (by decide)
      ⟨SegType.Load, 0x1000, 0x1000, List.replicate 100 7, true, false, true⟩
      (by decide) (by decide)⟩

/-! ## Characterization of the duplication copy loop -/

theorem copy_area_pages_spec (src dst : MemorySet) (B : Nat) :
    ∀ (L : List Nat) (m : Machine),
      L.Nodup →
      (∀ vpn ∈ L, ∃ e, src.translate vpn = some e ∧ e.ppn < B) →
      (∀ vpn ∈ L, ∃ e', dst.translate vpn = some e' ∧ B ≤ e'.ppn) →
      (∀ vpn ∈ L, ∀ vpn' ∈ L, vpn ≠ vpn' →
        ∀ e e', dst.translate vpn = some e → dst.translate vpn' = some e' →
          e.ppn ≠ e'.ppn) →
      ∃ m', copy_area_pages src dst L m = some m' ∧
        m'.next_frame = m.next_frame ∧
        (∀ p o, p < B → m'.mem p o = m.mem p o) ∧
        (∀ p o, (∀ vpn ∈ L, ∀ e', dst.translate vpn = some e' → p ≠ e'.ppn) →
          m'.mem p o = m.mem p o) ∧
        (∀ vpn ∈ L, ∀ e e', src.translate vpn = some e →
          dst.translate vpn = some e' →
          ∀ o, o < PAGE_SIZE → m'.mem e'.ppn o = m.mem e.ppn o) := by
  intro L
  induction L with
  | nil =>
    intro m _ _ _ _
    exact ⟨m, rfl, rfl, fun _ _ _ => rfl, fun _ _ _ => rfl,
      fun vpn hv => absurd hv (by simp)⟩
  | cons vpn rest ih =>
    intro m hnodup h1 h2 h3
    obtain ⟨hvnot, hnodup'⟩ := List.nodup_cons.mp hnodup
    obtain ⟨se, hse, hsep⟩ := h1 vpn (List.mem_cons_self vpn rest)
    obtain ⟨de, hde, hdep⟩ := h2 vpn (List.mem_cons_self vpn rest)
    obtain ⟨m', hm', hnext, hlow, hsepcl, hcontent⟩ :=
      ih (copy_full_page m de.ppn se.ppn) hnodup'
        (fun q hq => h1 q (List.mem_cons_of_mem vpn hq))
        (fun q hq => h2 q (List.mem_cons_of_mem vpn hq))
        (fun q hq q' hq' hne => h3 q (List.mem_cons_of_mem vpn hq)
          q' (List.mem_cons_of_mem vpn hq') hne)
    have hred : copy_area_pages src dst (vpn :: rest) m =
        copy_area_pages src dst rest (copy_full_page m de.ppn se.ppn) := by
      simp only [copy_area_pages, hse, hde]
    have hsep3 : ∀ q' ∈ rest, ∀ f', dst.translate q' = some f' →
        de.ppn ≠ f'.ppn := by
      intro q' hq' f' hf'
      exact h3 vpn (List.mem_cons_self vpn rest) q'
        (List.mem_cons_of_mem vpn hq')
        (fun hqq => hvnot (hqq ▸ hq')) de f' hde hf'
    refine ⟨m', by rw [hred]; exact hm', hnext, ?_, ?_, ?_⟩
    · intro p o hp
      rw [hlow p o hp]
      simp only [copy_full_page]
      rw [if_neg (by omega)]
    · intro p o hsep2
      rw [hsepcl p o (fun q hq e' he' =>
        hsep2 q (List.mem_cons_of_mem vpn hq) e' he')]
      simp only [copy_full_page]
      rw [if_neg ?_]
      rintro ⟨rfl, _⟩
      exact hsep2 vpn (List.mem_cons_self vpn rest) de hde rfl
    · intro q hq e e' he he' o ho
      rcases List.mem_cons.mp hq with rfl | hq'
      · rw [hse] at he
        rw [hde] at he'
        injection he with he
        injection he' with he'
        rw [← he, ← he']
        rw [hsepcl de.ppn o hsep3]
        simp only [copy_full_page]
        rw [if_pos (by simp [ho])]
      · rw [hcontent q hq' e e' he he' o ho]
        obtain ⟨se2, hse2, hsep2⟩ := h1 q (List.mem_cons_of_mem vpn hq')
        rw [hse2] at he
        injection he with he
        rw [← he]
        simp only [copy_full_page]
        rw [if_neg (by omega)]

/-! ## Characterization of `from_existed_user`'s duplication loop -/

theorem dup_areas_spec (src : MemorySet) :
    ∀ (L : List MapArea) (dst : MemorySet) (m : Machine),
      (∀ a ∈ L, a.map_type = MapType.Framed) →
      (∀ a ∈ L, ∀ vpn, a.vpn_range.l ≤ vpn → vpn < a.vpn_range.r →
        ∃ e, src.translate vpn = some e ∧ e.ppn < m.next_frame) →
      L.Pairwise rangesDisjoint →
      ∃ ms' m', dup_areas src L dst m = some (ms', m') ∧
        m.next_frame ≤ m'.next_frame ∧
        (∀ p o, p < m.next_frame → m'.mem p o = m.mem p o) ∧
        (∃ newAreas, ms'.areas = dst.areas ++ newAreas ∧
          List.Forall₂ (fun a b => b.vpn_range = a.vpn_range ∧
            b.map_type = a.map_type ∧ b.map_perm = a.map_perm) L newAreas) ∧
        (∀ vpn, (∀ a ∈ L, ¬(a.vpn_range.l ≤ vpn ∧ vpn < a.vpn_range.r)) →
          ms'.translate vpn = dst.translate vpn) ∧
        (∀ a ∈ L, ∀ vpn, a.vpn_range.l ≤ vpn → vpn < a.vpn_range.r →
          ∃ e e', src.translate vpn = some e ∧ ms'.translate vpn = some e' ∧
            m.next_frame ≤ e'.ppn ∧
            ∀ o, o < PAGE_SIZE → m'.mem e'.ppn o = m.mem e.ppn o) := by
  intro L
  induction L with
  | nil =>
    intro dst m _ _ _
    exact ⟨dst, m, rfl, le_refl _, fun _ _ _ => rfl,
      ⟨[], (List.append_nil _).symm, List.Forall₂.nil⟩,
      fun _ _ => rfl, fun a ha => absurd ha (by simp)⟩
  | cons a rest ih =>
    intro dst m hfr hmap hdisj
    have hafr : (MapArea.from_another a).map_type = MapType.Framed :=
      hfr a (List.mem_cons_self a rest)
    obtain ⟨s1, s2, s3, s4, s5, s6, s7⟩ :=
      map_framed_spec (MapArea.from_another a) dst.page_table m hafr
    have hfal : (MapArea.from_another a).vpn_range.l = a.vpn_range.l := rfl
    have hfar : (MapArea.from_another a).vpn_range.r = a.vpn_range.r := rfl
    rw [hfal, hfar] at s4 s5 s6 s7
    obtain ⟨m2, hcopy, cnext, clow, csep, ccontent⟩ :=
      copy_area_pages_spec src
        { page_table := ((MapArea.from_another a).map dst.page_table m).2.1,
          areas := dst.areas ++ [((MapArea.from_another a).map dst.page_table m).1] }
        m.next_frame a.vpn_range.toList ((MapArea.from_another a).map dst.page_table m).2.2
        (by simp only [VPNRange.toList]; exact List.nodup_range' _ _)
        (by
          intro vpn hv
          simp only [VPNRange.toList, List.mem_range'_1] at hv
          exact hmap a (List.mem_cons_self a rest) vpn (by omega) (by omega))
        (by
          intro vpn hv
          simp only [VPNRange.toList, List.mem_range'_1] at hv
          refine ⟨⟨m.next_frame + (vpn - a.vpn_range.l),
            (MapArea.from_another a).map_perm ||| 1⟩, ?_, ?_⟩
          · show ((MapArea.from_another a).map dst.page_table m).2.1.translate vpn = _
            rw [s5 vpn, if_pos (by omega)]
          · show m.next_frame ≤ m.next_frame + (vpn - a.vpn_range.l)
            omega)
        (by
          intro vpn hv vpn' hv' hne e e' he he'
          simp only [VPNRange.toList, List.mem_range'_1] at hv hv'
          show e.ppn ≠ e'.ppn
          have he2 : ((MapArea.from_another a).map dst.page_table m).2.1.translate vpn
              = some e := he
          have he2' : ((MapArea.from_another a).map dst.page_table m).2.1.translate vpn'
              = some e' := he'
          rw [s5 vpn, if_pos (by omega)] at he2
          rw [s5 vpn', if_pos (by omega)] at he2'
          injection he2 with he2
          injection he2' with he2'
          rw [← he2, ← he2']
          simp only []
          omega)
    obtain ⟨ms', m', hdup, inext, ilow, ⟨newAreas, iareas, iall⟩, itrans, icontent⟩ :=
      ih { page_table := ((MapArea.from_another a).map dst.page_table m).2.1,
           areas := dst.areas ++ [((MapArea.from_another a).map dst.page_table m).1] }
        m2
        (fun q hq => hfr q (List.mem_cons_of_mem a hq))
        (by
          intro q hq vpn hv1 hv2
          obtain ⟨e, he, hep⟩ := hmap q (List.mem_cons_of_mem a hq) vpn hv1 hv2
          exact ⟨e, he, by rw [cnext, s4]; omega⟩)
        (List.pairwise_cons.mp hdisj).2
    have hred : dup_areas src (a :: rest) dst m = some (ms', m') := by
      simp only [dup_areas, MemorySet.pushArea, hcopy]
      exact hdup
    have hm2next : m2.next_frame =
        m.next_frame + (a.vpn_range.r - a.vpn_range.l) := by
      rw [cnext, s4]
    have hdja : ∀ q ∈ rest, rangesDisjoint a q := (List.pairwise_cons.mp hdisj).1
    refine ⟨ms', m', hred, by omega, ?_, ?_, ?_, ?_⟩
    · intro p o hp
      rw [ilow p o (by omega), clow p o hp, s7 p o, if_neg (by omega)]
    · refine ⟨((MapArea.from_another a).map dst.page_table m).1 :: newAreas, ?_, ?_⟩
      · rw [iareas, List.append_assoc]
        rfl
      · refine List.Forall₂.cons ⟨?_, ?_, ?_⟩ iall
        · rw [s1]
          show (⟨a.vpn_range.get_start, a.vpn_range.get_end⟩ : VPNRange) = a.vpn_range
          rfl
        · rw [s2, hafr.symm]
          rfl
        · rw [s3]
          rfl
    · intro vpn hv
      rw [itrans vpn (fun q hq => hv q (List.mem_cons_of_mem a hq))]
      show ((MapArea.from_another a).map dst.page_table m).2.1.translate vpn = _
      rw [s5 vpn, if_neg ?_]
      · rfl
      · intro hc
        exact hv a (List.mem_cons_self a rest) ⟨hc.1, by omega⟩
    · intro q hq vpn hv1 hv2
      rcases List.mem_cons.mp hq with rfl | hq'
      · obtain ⟨e, he, hep⟩ := hmap q (List.mem_cons_self q rest) vpn hv1 hv2
        refine ⟨e, ⟨m.next_frame + (vpn - q.vpn_range.l), q.map_perm ||| 1⟩,
          he, ?_,
          (by show m.next_frame ≤ m.next_frame + (vpn - q.vpn_range.l); omega), ?_⟩
        · rw [itrans vpn ?_]
          · show ((MapArea.from_another q).map dst.page_table m).2.1.translate vpn = _
            rw [s5 vpn, if_pos (by omega)]
            rfl
          · intro x hx hvx
            rcases hdja x hx with h | h <;>
              simp only [rangesDisjoint, VPNRange.get_start, VPNRange.get_end] at h <;>
              omega
        · intro o ho
          have hppn : m.next_frame + (vpn - q.vpn_range.l) < m2.next_frame := by
            rw [hm2next]
            omega
          rw [ilow _ o hppn]
          have hcc := ccontent vpn
            (by simp only [VPNRange.toList, List.mem_range'_1]; omega)
            e ⟨m.next_frame + (vpn - q.vpn_range.l), q.map_perm ||| 1⟩ he ?_ o ho
          · rw [hcc, s7 _ o, if_neg (by omega)]
          · show ((MapArea.from_another q).map dst.page_table m).2.1.translate vpn = _
            rw [s5 vpn, if_pos (by omega)]
            rfl
      · obtain ⟨e, e', he, he', hep', hcnt⟩ := icontent q hq' vpn hv1 hv2
        refine ⟨e, e', he, he', by omega, ?_⟩
        intro o ho
        rw [hcnt o ho]
        obtain ⟨e2, he2, hep2⟩ := hmap q (List.mem_cons_of_mem a hq') vpn hv1 hv2
        rw [he2] at he
        injection he with he
        rw [← he]
        rw [clow _ o hep2, s7 _ o, if_neg (by omega)]

/-! ## Claim C6: `from_existed_user` is an eager full deep copy -/

/-- C6: duplicating a user address space (whose regions are `Framed`,
pairwise disjoint, and fully mapped with frames owned by the pool, i.e. PPNs
below the allocation counter) produces, for each source region, a region with
the same range, map type and permission backed by freshly allocated frames —
never a frame shared with the source: the two translations of every mapped
page differ — such that every mapped page is byte-identical to the source's
page at the moment of duplication, and a later write through one space's
frame never changes the other's page. -/
theorem from_existed_user_deep_copy (m : Machine) (strampoline : Nat)
    (src : MemorySet)
    (hfr : ∀ a ∈ src.areas, a.map_type = MapType.Framed)
    (hmap : ∀ a ∈ src.areas, ∀ vpn, a.vpn_range.get_start ≤ vpn →
      vpn < a.vpn_range.get_end →
      ∃ e, src.translate vpn = some e ∧ e.ppn < m.next_frame)
    (hdisj : src.areas.Pairwise rangesDisjoint) :
    ∃ dst m', MemorySet.from_existed_user m strampoline src = some (dst, m') ∧
      List.Forall₂ (fun a b => b.vpn_range = a.vpn_range ∧
        b.map_type = a.map_type ∧ b.map_perm = a.map_perm)
        src.areas dst.areas ∧
      ∀ a ∈ src.areas, ∀ vpn, a.vpn_range.get_start ≤ vpn →
        vpn < a.vpn_range.get_end →
        ∃ e e', src.translate vpn = some e ∧ dst.translate vpn = some e' ∧
          e'.ppn ≠ e.ppn ∧
          (∀ o, o < PAGE_SIZE →
            m'.mem e'.ppn o = m.mem e.ppn o ∧ m'.mem e.ppn o = m.mem e.ppn o) ∧
          (∀ o oo b, (m'.write e'.ppn o b).mem e.ppn oo = m'.mem e.ppn oo ∧
            (m'.write e.ppn o b).mem e'.ppn oo = m'.mem e'.ppn oo) := by
  obtain ⟨dst, m', hdup, inext, ilow, ⟨newAreas, iareas, iall⟩, _, icontent⟩ :=
    dup_areas_spec src src.areas (MemorySet.new_bare.map_trampoline strampoline)
      m hfr hmap hdisj
  refine ⟨dst, m', hdup, ?_, ?_⟩
  · rw [iareas]
    exact iall
  · intro a ha vpn hv1 hv2
    obtain ⟨e, e', he, he', hep', hcnt⟩ := icontent a ha vpn hv1 hv2
    obtain ⟨e2, he2, hep2⟩ := hmap a ha vpn hv1 hv2
    rw [he2] at he
    injection he with he
    have hep3 : e.ppn < m.next_frame := he ▸ hep2
    rw [he] at he2
    have hne : e'.ppn ≠ e.ppn := by omega
    refine ⟨e, e', he2, he', hne, ?_, ?_⟩
    · intro o ho
      exact ⟨hcnt o ho, ilow e.ppn o hep3⟩
    · intro o oo b
      constructor
      · simp only [Machine.write]
        rw [if_neg (by rintro ⟨h, _⟩; exact hne h.symm)]
      · simp only [Machine.write]
        rw [if_neg (by rintro ⟨h, _⟩; exact hne h)]

/-- Witness for C6 on a one-page source space: the copy gets a fresh frame
with identical content, and writes through either frame leave the other
unchanged. -/
theorem from_existed_user_deep_copy_witness :
    (∀ a ∈ (MemorySet.mk [(0, ⟨0, 23⟩)]
        [⟨⟨0, 1⟩, [(0, 0)], MapType.Framed, 22⟩]).areas,
      a.map_type = MapType.Framed) ∧
    (∃ dst m', MemorySet.from_existed_user ⟨1, fun _ _ => 0⟩ 0x80200000
        (MemorySet.mk [(0, ⟨0, 23⟩)]
          [⟨⟨0, 1⟩, [(0, 0)], MapType.Framed, 22⟩]) = some (dst, m') ∧
      List.Forall₂ (fun a b => b.vpn_range = a.vpn_range ∧
        b.map_type = a.map_type ∧ b.map_perm = a.map_perm)
        (MemorySet.mk [(0, ⟨0, 23⟩)]
          [⟨⟨0, 1⟩, [(0, 0)], MapType.Framed, 22⟩]).areas dst.areas ∧
      ∀ a ∈ (MemorySet.mk [(0, ⟨0, 23⟩)]
          [⟨⟨0, 1⟩, [(0, 0)], MapType.Framed, 22⟩]).areas,
        ∀ vpn, a.vpn_range.get_start ≤ vpn → vpn < a.vpn_range.get_end →
        ∃ e e', (MemorySet.mk [(0, ⟨0, 23⟩)]
            [⟨⟨0, 1⟩, [(0, 0)], MapType.Framed, 22⟩]).translate vpn = some e ∧
          dst.translate vpn = some e' ∧
          e'.ppn ≠ e.ppn ∧
          (∀ o, o < PAGE_SIZE →
            m'.mem e'.ppn o = Machine.mem ⟨1, fun _ _ => 0⟩ e.ppn o ∧
            m'.mem e.ppn o = Machine.mem ⟨1, fun _ _ => 0⟩ e.ppn o) ∧
          (∀ o oo b, (m'.write e'.ppn o b).mem e.ppn oo = m'.mem e.ppn oo ∧
            (m'.write e.ppn o b).mem e'.ppn oo = m'.mem e'.ppn oo)) :=
  ⟨by decide,
    from_existed_user_deep_copy ⟨1, fun _ _ => 0⟩ 0x80200000
      (MemorySet.mk [(0, ⟨0, 23⟩)] [⟨⟨0, 1⟩, [(0, 0)], MapType.Framed, 22⟩])
      (by decide)
      (by
        intro a ha vpn h1 h2
        simp only [List.mem_singleton] at ha
        subst ha
        simp only [VPNRange.get_start, VPNRange.get_end] at h1 h2
        have hv : vpn = 0 := by omega
        subst hv
        exact ⟨⟨0, 23⟩, rfl, by decide⟩)
      (by decide)⟩

end OS5
